import Mathlib

/-!
# mapreduce: a shallow embedding of `define.go`, `map.go` and `reduce.go`

The sequential functions (`ConvertResult`, `Map`, `Reduce`, `ReadMapperResult`) are
embedded as total functions; a run-time panic (nil dereference) is the value `none`.
The goroutines of `ParallelMapImpl` are embedded as an interleaving step function.
-/

namespace MapReduce

/-! ## define.go -/

/-- The type `OperationType` is `uint8` in the source. -/
abbrev OperationType := Fin 256

/-- The constant `Continue` is `iota = 0`. -/
def Continue : OperationType := 0

/-- The constant `Stop` is `iota = 1`. -/
def Stop : OperationType := 1

/-- The struct `InputItem[T]`; `index` is an `int64`. -/
structure InputItem (T : Type) where
  index : Int
  item : T
deriving DecidableEq, Repr

/-- The struct `OutputItem[T, R]`; `Err` is a Go `error`, `none` is `nil`. -/
structure OutputItem (T R E : Type) where
  Index : Int
  Item : T
  OpType : OperationType
  Result : R
  Err : Option E
deriving DecidableEq, Repr

/-! ## map.go: sequential part -/

/-- The type `MapperFunc[T, R]`, without the context argument. -/
abbrev MapperFunc (T R E : Type) := T → R × OperationType × Option E

/-- The type `ResultsMap[T, R] = map[int64]*OutputItem[T, R]`: an association list with
at most one binding per key once built with `ResultsMap.store`; a value `none` is a nil
pointer. -/
abbrev ResultsMap (T R E : Type) := List (Int × Option (OutputItem T R E))

/-- The Go map read `(*r)[k]`: a missing key reads as the zero value, a nil pointer. -/
def ResultsMap.get {T R E : Type} (r : ResultsMap T R E) (k : Int) :
    Option (OutputItem T R E) :=
  match r.lookup k with
  | some p => p
  | none => none

/-- The Go map write `results[k] = v`. -/
def ResultsMap.store {T R E : Type} :
    ResultsMap T R E → Int → Option (OutputItem T R E) → ResultsMap T R E
  | [], k, v => [(k, v)]
  | (k', v') :: rest, k, v =>
    if k' = k then (k, v) :: rest else (k', v') :: ResultsMap.store rest k v

/-- The call `maps.Keys(*r)`. -/
def ResultsMap.keys {T R E : Type} (r : ResultsMap T R E) : List Int :=
  r.map Prod.fst

/-- The body of the loop `for idx := range ids` of `ConvertResult`: `idx` runs over the
positions of `ids`, and every read is `(*r)[int64(idx)]`; dereferencing a nil pointer
panics (`none`). -/
def ConvertResult.loop {T R E : Type} (r : ResultsMap T R E) :
    List Nat → List R × List (Option E) × OperationType →
      Option (List R × List (Option E) × OperationType)
  | [], acc => some acc
  | idx :: rest, (results, errs, opType) =>
    match ResultsMap.get r (idx : Int) with
    | none => none
    | some o =>
      ConvertResult.loop r rest
        (results ++ [o.Result], errs ++ [o.Err],
          if o.OpType ≠ Continue then o.OpType else opType)

/-- The method `ResultsMap.ConvertResult`. -/
def ConvertResult {T R E : Type} (r : ResultsMap T R E) :
    Option (List R × List (Option E) × OperationType) :=
  let ids := (ResultsMap.keys r).mergeSort (fun a b => decide (a ≤ b))
  ConvertResult.loop r (List.range ids.length) ([], [], Continue)

/-- The loop of `Map`, from position `idx` on; the second component logs the items the
mapper has been applied to, in call order. -/
def Map.loop {T R E : Type} (mapper : MapperFunc T R E) :
    Nat → List T → ResultsMap T R E × List T → ResultsMap T R E × List T
  | _, [], st => st
  | idx, item :: rest, (results, calls) =>
    match mapper item with
    | (r, opType, err) =>
      let results1 := ResultsMap.store results (idx : Int)
        (some { Index := (idx : Int), OpType := opType, Item := item, Result := r, Err := err })
      if Continue ≠ opType then (results1, calls ++ [item])
      else Map.loop mapper (idx + 1) rest (results1, calls ++ [item])

/-- The function `Map`. -/
def Map {T R E : Type} (inputs : List T) (mapper : MapperFunc T R E) : ResultsMap T R E :=
  (Map.loop mapper 0 inputs ([], [])).1

/-- The items `Map` applies the mapper to, in call order. -/
def Map.calls {T R E : Type} (inputs : List T) (mapper : MapperFunc T R E) : List T :=
  (Map.loop mapper 0 inputs (([] : ResultsMap T R E), [])).2

/-- The method `ReadMapperResult`, on the sequence of envelopes received from the output
channel until it is closed. -/
def ReadMapperResult {T R E : Type} (arrivals : List (OutputItem T R E)) : ResultsMap T R E :=
  arrivals.foldl (fun results outputs => ResultsMap.store results outputs.Index (some outputs)) []

/-- The envelope a mapper call yields for position `idx` and item `item`. -/
def mkOutput {T R E : Type} (mapper : MapperFunc T R E) (idx : Int) (item : T) :
    OutputItem T R E :=
  match mapper item with
  | (r, opType, err) => { Index := idx, Item := item, OpType := opType, Result := r, Err := err }

/-- The envelopes `(i, mapper inputs[i])` for the positions `start, start+1, ...`. -/
def envelopesFrom {T R E : Type} (mapper : MapperFunc T R E) : Nat → List T → List (OutputItem T R E)
  | _, [] => []
  | start, item :: rest => mkOutput mapper (start : Int) item :: envelopesFrom mapper (start + 1) rest

/-- The overall signal `ConvertResult` computes from the signals read in key order. -/
def lastSignal (ops : List OperationType) : OperationType :=
  ops.foldl (fun opType op => if op ≠ Continue then op else opType) Continue

/-- The shortest initial segment of the inputs that ends at the first item on which the
mapper returns a signal other than `Continue` (all of them when there is none). -/
def takeUntilStop {T R E : Type} (mapper : MapperFunc T R E) : List T → List T
  | [] => []
  | x :: rest => if Continue ≠ (mapper x).2.1 then [x] else x :: takeUntilStop mapper rest

/-! ## map.go: the goroutines of `ParallelMapImpl`

A run of `Start` or `StartWithChan` is a sequence of atomic steps of its goroutines: the
producer, the workers (`workerFunc`), the goroutine that waits on the wait group and
closes the output channel, and the reader of the output channel (`ReadMapperResult`, or
the caller of `StreamMap`). Each step is one channel operation, one access to `willStop`
or one wait-group operation, together with the local computation that follows it. A
buffered channel is the list of its queued elements: a send needs room below the
capacity, a receive takes the head, and a receive on an empty closed channel ends a
`range` loop. The data channel of `StartWithChan` is the list of the elements its caller
sends, with whether the caller closes it after them. A step that is blocked is `none`. -/

/-- The `int64` result of an arithmetic operation whose exact value is `x`. -/
def wrapInt64 (x : Int) : Int := (x + 2 ^ 63) % 2 ^ 64 - 2 ^ 63

/-- Where a goroutine running `workerFunc` stands. -/
inductive WorkerPc (T R E : Type) where
  /-- At `for inputItem := range m.chInput`. -/
  | recv
  /-- Holding `inputItem`, at `if m.willStop.Load()`. -/
  | check (inputItem : InputItem T)
  /-- The mapper has returned, at `m.chOutput <- ...`. -/
  | send (out : OutputItem T R E)
  /-- The signal sent was not `Continue`, at `m.willStop.Store(true)`. -/
  | store
  /-- Out of the loop, the deferred `m.wg.Done()` pending. -/
  | exit
  /-- Returned. -/
  | done
deriving DecidableEq, Repr

/-- A worker goroutine, with the history of its operations: the envelopes it received,
the envelopes it sent, the envelopes it discarded at the stop check, and the stop checks
it made: the envelope it held at `if m.willStop.Load()` and the value it loaded. -/
structure Worker (T R E : Type) where
  pc : WorkerPc T R E
  consumed : List (InputItem T)
  emitted : List (OutputItem T R E)
  dropped : List (InputItem T)
  checks : List (InputItem T × Bool)
deriving DecidableEq, Repr

/-- Where the producer goroutine of `Start` or `StartWithChan` stands. -/
inductive ProducerPc (T : Type) where
  /-- At the head of the `for ... range` loop. -/
  | loop
  /-- In `StartWithChan`: holding `inData`, at `if m.willStop.Load()`. -/
  | check (inData : T)
  /-- At `m.chInput <- ...`. -/
  | send (e : InputItem T)
  /-- Out of the loop, the deferred `close(m.chInput)` pending. -/
  | close
  /-- Returned. -/
  | done
deriving DecidableEq, Repr

/-- Where the goroutine `m.wg.Wait(); close(m.chOutput)` stands. -/
inductive MonitorPc where
  | wait
  | close
  | done
deriving DecidableEq, Repr

/-- Where the loop `for outputs := range chOutput` of the reader stands. -/
inductive ReaderPc where
  | read
  | returned
deriving DecidableEq, Repr

/-- The input of a run: the slice of `Start`, or the start index of `StartWithChan` with
the elements the caller sends on the data channel and whether the caller closes the
channel after them (`closes = false`: the caller leaves it open and sends no more). -/
inductive Source (T : Type) where
  | slice (inputs : List T)
  | chan (startIndex : Int) (chData : List T) (closes : Bool)
deriving DecidableEq, Repr

/-- The parameters of a run; `concurrency` is the capacity of both channels. -/
structure Config (T R E : Type) where
  concurrency : Nat
  mapper : MapperFunc T R E
  source : Source T

/-- The shared state of `ParallelMapImpl` and the local state of its goroutines. The
fields `sent`, `outputs`, `received`, `outputCloses` and `panicked` record history: the
envelopes sent on `chInput`, sent on `chOutput` and received from `chOutput`, the number
of `close(m.chOutput)` executed, and whether a send on a closed channel or a second close
has happened (after which no step is taken). -/
structure State (T R E : Type) where
  willStop : Bool
  chInput : List (InputItem T)
  inputClosed : Bool
  chOutput : List (OutputItem T R E)
  outputClosed : Bool
  wg : Nat
  producer : ProducerPc T
  next : Nat
  idx : Int
  workers : List (Worker T R E)
  monitor : MonitorPc
  reader : ReaderPc
  results : ResultsMap T R E
  sent : List (InputItem T)
  outputs : List (OutputItem T R E)
  received : List (OutputItem T R E)
  outputCloses : Nat
  panicked : Bool
deriving DecidableEq, Repr

/-- The goroutines of a run. -/
inductive Actor where
  | producer
  | worker (i : Nat)
  | monitor
  | reader
deriving DecidableEq, Repr

/-- One step of the producer goroutine of `Start` (source `slice`) or `StartWithChan`
(source `chan`); `next` counts the loop iterations begun. In `StartWithChan` the receive
of `for inData := range chData` takes the next element the caller has sent; once they are
used up it ends the loop if the caller has closed the channel and is blocked otherwise. -/
def producerStep {T R E : Type} (cfg : Config T R E) (s : State T R E) :
    Option (State T R E) :=
  match s.producer with
  | .loop =>
    match cfg.source with
    | .slice inputs =>
      match inputs[s.next]? with
      | none => some { s with producer := .close }
      | some item =>
        if s.willStop then some { s with producer := .close }
        else some { s with producer := .send { index := (s.next : Int), item := item },
                           next := s.next + 1 }
    | .chan _ chData closes =>
      match chData[s.next]? with
      | none => if closes then some { s with producer := .close } else none
      | some inData => some { s with producer := .check inData, next := s.next + 1 }
  | .check inData =>
    if s.willStop then some { s with producer := .close }
    else some { s with idx := wrapInt64 (s.idx + 1),
                       producer := .send { index := wrapInt64 (s.idx + 1), item := inData } }
  | .send e =>
    if s.chInput.length < cfg.concurrency then
      some { s with chInput := s.chInput ++ [e], sent := s.sent ++ [e], producer := .loop }
    else none
  | .close => some { s with inputClosed := true, producer := .done }
  | .done => none

/-- One step of the `i`-th goroutine running `workerFunc`. -/
def workerFunc {T R E : Type} (cfg : Config T R E) (i : Nat) (s : State T R E) :
    Option (State T R E) :=
  match s.workers[i]? with
  | none => none
  | some w =>
    match w.pc with
    | .recv =>
      match s.chInput with
      | inputItem :: rest =>
        some { s with chInput := rest,
                      workers := s.workers.set i
                        { w with pc := .check inputItem, consumed := w.consumed ++ [inputItem] } }
      | [] =>
        if s.inputClosed then some { s with workers := s.workers.set i { w with pc := .exit } }
        else none
    | .check inputItem =>
      if s.willStop then
        some { s with workers := s.workers.set i
                        { w with pc := .exit, dropped := w.dropped ++ [inputItem],
                                 checks := w.checks ++ [(inputItem, s.willStop)] } }
      else
        some { s with workers := s.workers.set i
                        { w with pc := .send (mkOutput cfg.mapper inputItem.index inputItem.item),
                                 checks := w.checks ++ [(inputItem, s.willStop)] } }
    | .send out =>
      if s.outputClosed then some { s with panicked := true }
      else if s.chOutput.length < cfg.concurrency then
        some { s with chOutput := s.chOutput ++ [out], outputs := s.outputs ++ [out],
                      workers := s.workers.set i
                        { w with pc := if Continue ≠ out.OpType then .store else .recv,
                                 emitted := w.emitted ++ [out] } }
      else none
    | .store =>
      some { s with willStop := true, workers := s.workers.set i { w with pc := .exit } }
    | .exit =>
      some { s with wg := s.wg - 1, workers := s.workers.set i { w with pc := .done } }
    | .done => none

/-- One step of the goroutine `m.wg.Wait(); close(m.chOutput)` of `startWorkerAndMonitor`. -/
def monitorStep {T R E : Type} (s : State T R E) : Option (State T R E) :=
  match s.monitor with
  | .wait => if s.wg = 0 then some { s with monitor := .close } else none
  | .close =>
    if s.outputClosed then some { s with panicked := true }
    else some { s with outputClosed := true, outputCloses := s.outputCloses + 1,
                       monitor := .done }
  | .done => none

/-- One step of the loop of `ReadMapperResult` on the output channel. -/
def readerStep {T R E : Type} (s : State T R E) : Option (State T R E) :=
  match s.reader with
  | .read =>
    match s.chOutput with
    | outputs :: rest =>
      some { s with chOutput := rest,
                    results := ResultsMap.store s.results outputs.Index (some outputs),
                    received := s.received ++ [outputs] }
    | [] => if s.outputClosed then some { s with reader := .returned } else none
  | .returned => none

/-- One step of the goroutine `a`; a panic stops the program. -/
def step {T R E : Type} (cfg : Config T R E) (a : Actor) (s : State T R E) :
    Option (State T R E) :=
  if s.panicked then none
  else
    match a with
    | .producer => producerStep cfg s
    | .worker i => workerFunc cfg i s
    | .monitor => monitorStep s
    | .reader => readerStep s

/-- The number of workers `startWorkerAndMonitor` launches: `realConcurrency` in `Start`,
`m.concurrency` in `StartWithChan`. -/
def realConcurrency {T R E : Type} (cfg : Config T R E) : Nat :=
  match cfg.source with
  | .slice inputs => if inputs.length < cfg.concurrency then inputs.length else cfg.concurrency
  | .chan _ _ _ => cfg.concurrency

/-- The state once `NewParallelMapImpl` and `startWorkerAndMonitor` have run and the
producer goroutine has been started: `wg.Add(1)` has been called once per worker, and no
goroutine has made a step yet. -/
def init {T R E : Type} (cfg : Config T R E) : State T R E :=
  { willStop := false
    chInput := []
    inputClosed := false
    chOutput := []
    outputClosed := false
    wg := realConcurrency cfg
    producer := .loop
    next := 0
    idx := match cfg.source with
      | .slice _ => 0
      | .chan startIndex _ _ => startIndex
    workers := List.replicate (realConcurrency cfg)
      { pc := .recv, consumed := [], emitted := [], dropped := [], checks := [] }
    monitor := .wait
    reader := .read
    results := []
    sent := []
    outputs := []
    received := []
    outputCloses := 0
    panicked := false }

/-- The run of `Start(inputs, mapper)` on a `ParallelMapImpl` of the given concurrency,
with `ReadMapperResult` reading its output channel: the function `ParallelMap`. -/
def Start {T R E : Type} (inputs : List T) (concurrency : Nat) (mapper : MapperFunc T R E) :
    Config T R E :=
  { concurrency := concurrency, mapper := mapper, source := .slice inputs }

/-- The run of `StartWithChan(startIndex, chData, mapper)`: the function `StreamMap`, with
its caller sending the elements `chData` on the data channel, closing it after them or
not, and reading the output channel. -/
def StartWithChan {T R E : Type} (startIndex : Int) (chData : List T) (closes : Bool)
    (concurrency : Nat) (mapper : MapperFunc T R E) : Config T R E :=
  { concurrency := concurrency, mapper := mapper, source := .chan startIndex chData closes }

/-- The state after the goroutines have taken steps in the order of the schedule, when
none of these steps is blocked. -/
def run {T R E : Type} (cfg : Config T R E) : List Actor → State T R E → Option (State T R E)
  | [], s => some s
  | a :: rest, s =>
    match step cfg a s with
    | none => none
    | some s1 => run cfg rest s1

/-- A state some interleaving of the goroutines reaches. -/
def Reachable {T R E : Type} (cfg : Config T R E) (s : State T R E) : Prop :=
  ∃ sched, run cfg sched (init cfg) = some s

/-- The transitions of `step`, one constructor per branch. -/
inductive Step {T R E : Type} (cfg : Config T R E) : State T R E → State T R E → Prop where
  | sliceEnd (s : State T R E) (inputs : List T) (hnp : s.panicked = false)
      (hsrc : cfg.source = .slice inputs) (hpc : s.producer = .loop)
      (hget : inputs[s.next]? = none) : Step cfg s { s with producer := .close }
  | sliceStop (s : State T R E) (inputs : List T) (item : T) (hnp : s.panicked = false)
      (hsrc : cfg.source = .slice inputs) (hpc : s.producer = .loop)
      (hget : inputs[s.next]? = some item) (hstop : s.willStop = true) :
      Step cfg s { s with producer := .close }
  | sliceNext (s : State T R E) (inputs : List T) (item : T) (hnp : s.panicked = false)
      (hsrc : cfg.source = .slice inputs) (hpc : s.producer = .loop)
      (hget : inputs[s.next]? = some item) (hstop : s.willStop = false) :
      Step cfg s { s with producer := .send { index := (s.next : Int), item := item },
                          next := s.next + 1 }
  | chanEnd (s : State T R E) (startIndex : Int) (chData : List T) (hnp : s.panicked = false)
      (hsrc : cfg.source = .chan startIndex chData true) (hpc : s.producer = .loop)
      (hget : chData[s.next]? = none) : Step cfg s { s with producer := .close }
  | chanRecv (s : State T R E) (startIndex : Int) (chData : List T) (closes : Bool)
      (inData : T) (hnp : s.panicked = false)
      (hsrc : cfg.source = .chan startIndex chData closes) (hpc : s.producer = .loop)
      (hget : chData[s.next]? = some inData) :
      Step cfg s { s with producer := .check inData, next := s.next + 1 }
  | checkStop (s : State T R E) (inData : T) (hnp : s.panicked = false)
      (hpc : s.producer = .check inData) (hstop : s.willStop = true) :
      Step cfg s { s with producer := .close }
  | checkGo (s : State T R E) (inData : T) (hnp : s.panicked = false)
      (hpc : s.producer = .check inData) (hstop : s.willStop = false) :
      Step cfg s { s with idx := wrapInt64 (s.idx + 1),
                          producer := .send { index := wrapInt64 (s.idx + 1), item := inData } }
  | prodSend (s : State T R E) (e : InputItem T) (hnp : s.panicked = false)
      (hpc : s.producer = .send e) (hroom : s.chInput.length < cfg.concurrency) :
      Step cfg s { s with chInput := s.chInput ++ [e], sent := s.sent ++ [e], producer := .loop }
  | prodClose (s : State T R E) (hnp : s.panicked = false) (hpc : s.producer = .close) :
      Step cfg s { s with inputClosed := true, producer := .done }
  | wRecv (s : State T R E) (i : Nat) (w : Worker T R E) (inputItem : InputItem T)
      (rest : List (InputItem T)) (hnp : s.panicked = false)
      (hw : s.workers[i]? = some w) (hpc : w.pc = .recv) (hch : s.chInput = inputItem :: rest) :
      Step cfg s { s with chInput := rest,
                          workers := s.workers.set i
                            { w with pc := .check inputItem,
                                     consumed := w.consumed ++ [inputItem] } }
  | wClosed (s : State T R E) (i : Nat) (w : Worker T R E) (hnp : s.panicked = false)
      (hw : s.workers[i]? = some w) (hpc : w.pc = .recv) (hch : s.chInput = [])
      (hcl : s.inputClosed = true) :
      Step cfg s { s with workers := s.workers.set i { w with pc := .exit } }
  | wCheckStop (s : State T R E) (i : Nat) (w : Worker T R E) (inputItem : InputItem T)
      (hnp : s.panicked = false)
      (hw : s.workers[i]? = some w) (hpc : w.pc = .check inputItem) (hstop : s.willStop = true) :
      Step cfg s { s with workers := s.workers.set i
                            { w with pc := .exit, dropped := w.dropped ++ [inputItem],
                                     checks := w.checks ++ [(inputItem, s.willStop)] } }
  | wCheckGo (s : State T R E) (i : Nat) (w : Worker T R E) (inputItem : InputItem T)
      (hnp : s.panicked = false)
      (hw : s.workers[i]? = some w) (hpc : w.pc = .check inputItem)
      (hstop : s.willStop = false) :
      Step cfg s { s with workers := s.workers.set i
                            { w with pc := WorkerPc.send (mkOutput cfg.mapper inputItem.index
                                       inputItem.item),
                                     checks := w.checks ++ [(inputItem, s.willStop)] } }
  | wSendPanic (s : State T R E) (i : Nat) (w : Worker T R E) (out : OutputItem T R E)
      (hnp : s.panicked = false)
      (hw : s.workers[i]? = some w) (hpc : w.pc = .send out) (hcl : s.outputClosed = true) :
      Step cfg s { s with panicked := true }
  | wSend (s : State T R E) (i : Nat) (w : Worker T R E) (out : OutputItem T R E)
      (hnp : s.panicked = false)
      (hw : s.workers[i]? = some w) (hpc : w.pc = .send out) (hcl : s.outputClosed = false)
      (hroom : s.chOutput.length < cfg.concurrency) :
      Step cfg s { s with chOutput := s.chOutput ++ [out], outputs := s.outputs ++ [out],
                          workers := s.workers.set i
                            { w with pc := if Continue ≠ out.OpType then .store else .recv,
                                     emitted := w.emitted ++ [out] } }
  | wStore (s : State T R E) (i : Nat) (w : Worker T R E) (hnp : s.panicked = false)
      (hw : s.workers[i]? = some w) (hpc : w.pc = .store) :
      Step cfg s { s with willStop := true,
                          workers := s.workers.set i { w with pc := .exit } }
  | wExit (s : State T R E) (i : Nat) (w : Worker T R E) (hnp : s.panicked = false)
      (hw : s.workers[i]? = some w) (hpc : w.pc = .exit) :
      Step cfg s { s with wg := s.wg - 1,
                          workers := s.workers.set i { w with pc := .done } }
  | mWait (s : State T R E) (hnp : s.panicked = false) (hpc : s.monitor = .wait)
      (hwg : s.wg = 0) : Step cfg s { s with monitor := .close }
  | mClosePanic (s : State T R E) (hnp : s.panicked = false) (hpc : s.monitor = .close)
      (hcl : s.outputClosed = true) : Step cfg s { s with panicked := true }
  | mClose (s : State T R E) (hnp : s.panicked = false) (hpc : s.monitor = .close)
      (hcl : s.outputClosed = false) :
      Step cfg s { s with outputClosed := true, outputCloses := s.outputCloses + 1,
                          monitor := .done }
  | rRead (s : State T R E) (outputs : OutputItem T R E) (rest : List (OutputItem T R E))
      (hnp : s.panicked = false) (hpc : s.reader = .read) (hch : s.chOutput = outputs :: rest) :
      Step cfg s { s with chOutput := rest,
                          results := ResultsMap.store s.results outputs.Index (some outputs),
                          received := s.received ++ [outputs] }
  | rReturn (s : State T R E) (hnp : s.panicked = false) (hpc : s.reader = .read)
      (hch : s.chOutput = []) (hcl : s.outputClosed = true) :
      Step cfg s { s with reader := .returned }

/-- Whether a worker goroutine has not returned yet. -/
def Worker.live {T R E : Type} (w : Worker T R E) : Bool :=
  match w.pc with
  | .done => false
  | _ => true

/-- The invariant behind the closing of the output channel: no panic has happened, the
wait-group counter is the number of workers that have not returned, and the output
channel is closed exactly when the closing goroutine has finished, which it does only
after the counter has reached zero. -/
structure CloseInv {T R E : Type} (cfg : Config T R E) (s : State T R E) : Prop where
  np : s.panicked = false
  len : s.workers.length = realConcurrency cfg
  wg : s.wg = s.workers.countP Worker.live
  mon : match s.monitor with
    | .wait => s.outputClosed = false ∧ s.outputCloses = 0
    | .close => s.wg = 0 ∧ s.outputClosed = false ∧ s.outputCloses = 0
    | .done => s.wg = 0 ∧ s.outputClosed = true ∧ s.outputCloses = 1

/-- The envelope a worker holds at its stop check. -/
def WorkerPc.heldInput {T R E : Type} : WorkerPc T R E → List (InputItem T)
  | .check inputItem => [inputItem]
  | _ => []

/-- The envelope a worker holds at its send. -/
def WorkerPc.pendingOutput {T R E : Type} : WorkerPc T R E → List (OutputItem T R E)
  | .send out => [out]
  | _ => []

/-- The invariant of a worker goroutine. The envelopes it has received are, in order, those
on which it has made its stop check, followed by the one it holds at the check. The
mapper's outputs for the envelopes whose check found the flag unset are, in order, the
envelopes it has sent, followed by the one it holds at its send. The envelopes it has
discarded are those whose check found the flag set. Only its last check can have found
the flag set, and then it has left its loop. -/
def WorkerInv {T R E : Type} (mapper : MapperFunc T R E) (w : Worker T R E) : Prop :=
  w.consumed = w.checks.map Prod.fst ++ w.pc.heldInput ∧
    (w.checks.filter (fun c => !c.2)).map (fun c => mkOutput mapper c.1.index c.1.item) =
      w.emitted ++ w.pc.pendingOutput ∧
    w.dropped = (w.checks.filter (fun c => c.2)).map Prod.fst ∧
    ((∀ c ∈ w.checks, c.2 = false) ∨
      ∃ pre inputItem, w.checks = pre ++ [(inputItem, true)] ∧ (∀ c ∈ pre, c.2 = false) ∧
        (w.pc = .exit ∨ w.pc = .done))

/-- The input envelopes with the indices `first, first+1, ...`. -/
def inputEnvelopes {T : Type} : Int → List T → List (InputItem T)
  | _, [] => []
  | first, x :: rest => { index := first, item := x } :: inputEnvelopes (first + 1) rest

/-- The index of the envelope a worker holds between its receive and its send. -/
def WorkerPc.held {T R E : Type} : WorkerPc T R E → List Int
  | .check inputItem => [inputItem.index]
  | .send out => [out.Index]
  | _ => []

/-- The indices of the envelopes sent on the output channel, queued in the input channel
or held by a worker. -/
def inFlight {T R E : Type} (s : State T R E) : List Int :=
  s.outputs.map (fun o => o.Index) ++ s.chInput.map (fun e => e.index) ++
    s.workers.flatMap (fun w => w.pc.held)

/-- The invariant of the producer of `Start`: it has sent the envelopes of the first `k`
inputs, and at its send it holds the envelope of input `k`. -/
def SliceInv {T R E : Type} (inputs : List T) (s : State T R E) : Prop :=
  ∃ k, k ≤ inputs.length ∧ s.sent = inputEnvelopes 0 (inputs.take k) ∧
    match s.producer with
    | .loop => s.next = k
    | .send e => s.next = k + 1 ∧ inputs[k]? = some e.item ∧ e.index = (k : Int)
    | .check _ => False
    | .close => True
    | .done => True

/-- The invariant of the producer of `StartWithChan` when `idx` cannot overflow: it has
relayed the first `k` elements of the data channel with the indices `startIndex + 1`,
..., `startIndex + k`. -/
def ChanInv {T R E : Type} (startIndex : Int) (chData : List T) (s : State T R E) : Prop :=
  ∃ k, k ≤ chData.length ∧ s.sent = inputEnvelopes (startIndex + 1) (chData.take k) ∧
    match s.producer with
    | .loop => s.next = k ∧ s.idx = startIndex + k
    | .check inData => s.next = k + 1 ∧ chData[k]? = some inData ∧ s.idx = startIndex + k
    | .send e =>
      s.next = k + 1 ∧ chData[k]? = some e.item ∧ e.index = startIndex + k + 1 ∧
        s.idx = startIndex + k + 1
    | .close => True
    | .done => True

/-- Every envelope queued, held or sent on the output channel comes from an envelope
sent on the input channel. -/
structure OriginInv {T R E : Type} (mapper : MapperFunc T R E) (s : State T R E) : Prop where
  queued : ∀ e ∈ s.chInput, e ∈ s.sent
  held : ∀ w ∈ s.workers,
    match w.pc with
    | .check inputItem => inputItem ∈ s.sent
    | .send out => ∃ e ∈ s.sent, out = mkOutput mapper e.index e.item
    | _ => True
  out : ∀ o ∈ s.outputs, ∃ e ∈ s.sent, o = mkOutput mapper e.index e.item

/-- The invariant of the channel ends: the input channel is closed exactly when the
producer has returned, and the reader returns only on the closed output channel. -/
structure FlowInv {T R E : Type} (s : State T R E) : Prop where
  closed : s.inputClosed = true ↔ s.producer = .done
  ret : s.reader = .returned → s.outputClosed = true

/-- The envelope `workerFunc` sends for the input envelope `e`. -/
def outputOf {T R E : Type} (mapper : MapperFunc T R E) (e : InputItem T) : OutputItem T R E :=
  mkOutput mapper e.index e.item

/-- The mapper returns `Continue` on every envelope of the list. -/
def AllContinue {T R E : Type} (mapper : MapperFunc T R E) (es : List (InputItem T)) : Prop :=
  ∀ e ∈ es, (mapper e.item).2.1 = Continue

/-- The worker has sent the outputs of all the envelopes it received, and the last of them
is the only one whose signal is not `Continue`. -/
def Stopped {T R E : Type} (mapper : MapperFunc T R E) (w : Worker T R E) : Prop :=
  ∃ pre last, w.consumed = pre ++ [last] ∧ w.emitted = (pre ++ [last]).map (outputOf mapper) ∧
    AllContinue mapper pre ∧ (mapper last.item).2.1 ≠ Continue

/-- How the only worker of a run with one worker can have left its loop: after sending a
signal other than `Continue` and setting the stop flag, or on the closed and drained
input channel with the stop flag unset. -/
def Final {T R E : Type} (mapper : MapperFunc T R E) (s : State T R E) (w : Worker T R E) :
    Prop :=
  (s.willStop = true ∧ Stopped mapper w) ∨
    (s.willStop = false ∧ s.chInput = [] ∧ s.inputClosed = true ∧
      w.emitted = w.consumed.map (outputOf mapper) ∧ AllContinue mapper w.consumed)

/-- The invariant of the only worker `w` of a run with one worker: the input channel holds
the envelopes sent and not yet received, in order; the worker has sent the output of
every envelope it received except the one it holds; the stop flag is unset as long as
the worker is in its loop. -/
def WorkerSeq {T R E : Type} (mapper : MapperFunc T R E) (s : State T R E)
    (w : Worker T R E) : Prop :=
  s.sent = w.consumed ++ s.chInput ∧ s.outputs = w.emitted ∧
    match w.pc with
    | .recv =>
      s.willStop = false ∧ w.emitted = w.consumed.map (outputOf mapper) ∧
        AllContinue mapper w.consumed
    | .check inputItem =>
      s.willStop = false ∧ ∃ pre, w.consumed = pre ++ [inputItem] ∧
        w.emitted = pre.map (outputOf mapper) ∧ AllContinue mapper pre
    | .send out =>
      s.willStop = false ∧ ∃ pre inputItem, w.consumed = pre ++ [inputItem] ∧
        out = outputOf mapper inputItem ∧ w.emitted = pre.map (outputOf mapper) ∧
        AllContinue mapper pre
    | .store => s.willStop = false ∧ Stopped mapper w
    | .exit => Final mapper s w
    | .done => Final mapper s w

/-- The invariant of a run of `Start` with at most one worker. -/
structure SeqInv {T R E : Type} (mapper : MapperFunc T R E) (inputs : List T)
    (s : State T R E) : Prop where
  out : s.received ++ s.chOutput = s.outputs
  res : s.results = ReadMapperResult s.received
  ret : s.reader = .returned → s.chOutput = [] ∧ s.outputClosed = true
  prod : (s.producer = .close ∨ s.producer = .done) →
    s.willStop = true ∨ s.sent = inputEnvelopes 0 inputs
  closed : s.inputClosed = true ↔ s.producer = .done
  wk : (s.workers = [] ∧ s.outputs = []) ∨ ∃ w, s.workers = [w] ∧ WorkerSeq mapper s w

/-- The weight of a producer position in the termination measure; `remaining` is the
number of elements the loop has not begun with. -/
def ProducerPc.weight {T : Type} (remaining : Nat) : ProducerPc T → Nat
  | .loop => 7 * remaining + 2
  | .check _ => 7 * remaining + 8
  | .send _ => 7 * remaining + 7
  | .close => 1
  | .done => 0

/-- The weight of a worker position in the termination measure. -/
def WorkerPc.weight {T R E : Type} : WorkerPc T R E → Nat
  | .recv => 2
  | .check _ => 5
  | .send _ => 4
  | .store => 2
  | .exit => 1
  | .done => 0

/-- The weight of a position of the closing goroutine in the termination measure. -/
def MonitorPc.weight : MonitorPc → Nat
  | .wait => 2
  | .close => 1
  | .done => 0

/-- The weight of a reader position in the termination measure. -/
def ReaderPc.weight : ReaderPc → Nat
  | .read => 1
  | .returned => 0

/-- The number of elements of the source. -/
def Source.length {T : Type} : Source T → Nat
  | .slice inputs => inputs.length
  | .chan _ chData _ => chData.length

/-- The termination measure: every step of every goroutine makes it smaller. -/
def measure {T R E : Type} (cfg : Config T R E) (s : State T R E) : Nat :=
  s.producer.weight (cfg.source.length - s.next) + 4 * s.chInput.length +
    (s.workers.map (fun w => w.pc.weight)).sum + s.chOutput.length +
    s.monitor.weight + s.reader.weight + (if s.panicked then 0 else 1)

/-! ## Concrete runs -/

/-- A mapper that returns its argument, with the signal `Stop` on 10 and `Continue`
elsewhere, and no error. -/
def stopOnTen : MapperFunc Nat Nat Unit :=
  fun n => (n, if n = 10 then Stop else Continue, none)

/-- The run of `ParallelMap` on `[10, 20, 30]` with concurrency 1 and `stopOnTen`. -/
def stuckConfig : Config Nat Nat Unit := Start [10, 20, 30] 1 stopOnTen

/-- An interleaving of `stuckConfig`: the producer queues element 0, the worker takes it,
the producer queues element 1 and reaches the send of element 2 with the channel full;
the worker maps element 0, sends the result, sets `willStop` and returns; the output
channel is closed and `ReadMapperResult` returns. -/
def stuckSchedule : List Actor :=
  [.producer, .producer, .worker 0, .producer, .producer, .producer, .worker 0, .worker 0,
    .worker 0, .worker 0, .monitor, .monitor, .reader, .reader]

/-- The state `stuckSchedule` leads to. -/
def stuckState : State Nat Nat Unit :=
  { willStop := true
    chInput := [{ index := 1, item := 20 }]
    inputClosed := false
    chOutput := []
    outputClosed := true
    wg := 0
    producer := .send { index := 2, item := 30 }
    next := 3
    idx := 0
    workers := [{ pc := .done
                  consumed := [{ index := 0, item := 10 }]
                  emitted := [{ Index := 0, Item := 10, OpType := Stop, Result := 10, Err := none }]
                  dropped := []
                  checks := [({ index := 0, item := 10 }, false)] }]
    monitor := .done
    reader := .returned
    results := [(0, some { Index := 0, Item := 10, OpType := Stop, Result := 10, Err := none })]
    sent := [{ index := 0, item := 10 }, { index := 1, item := 20 }]
    outputs := [{ Index := 0, Item := 10, OpType := Stop, Result := 10, Err := none }]
    received := [{ Index := 0, Item := 10, OpType := Stop, Result := 10, Err := none }]
    outputCloses := 1
    panicked := false }

/-- The run of `ParallelMap` on `[10, 20, 30]` with concurrency 2 and `stopOnTen`. -/
def dropConfig : Config Nat Nat Unit := Start [10, 20, 30] 2 stopOnTen

/-- An interleaving of `dropConfig`: the producer queues elements 0 and 1; worker 0 takes
element 0, maps it, sends the result and sets `willStop`; worker 1 then takes element 1
off the input channel, finds `willStop` set and returns; worker 0 returns. -/
def dropSchedule : List Actor :=
  [.producer, .producer, .producer, .producer, .worker 0, .worker 0, .worker 0, .worker 0,
    .worker 1, .worker 1, .worker 1, .worker 0]

/-- The state `dropSchedule` leads to. -/
def dropState : State Nat Nat Unit :=
  { willStop := true
    chInput := []
    inputClosed := false
    chOutput := [{ Index := 0, Item := 10, OpType := Stop, Result := 10, Err := none }]
    outputClosed := false
    wg := 0
    producer := .loop
    next := 2
    idx := 0
    workers := [{ pc := .done
                  consumed := [{ index := 0, item := 10 }]
                  emitted := [{ Index := 0, Item := 10, OpType := Stop, Result := 10, Err := none }]
                  dropped := []
                  checks := [({ index := 0, item := 10 }, false)] },
                { pc := .done
                  consumed := [{ index := 1, item := 20 }]
                  emitted := []
                  dropped := [{ index := 1, item := 20 }]
                  checks := [({ index := 1, item := 20 }, true)] }]
    monitor := .wait
    reader := .read
    results := []
    sent := [{ index := 0, item := 10 }, { index := 1, item := 20 }]
    outputs := [{ Index := 0, Item := 10, OpType := Stop, Result := 10, Err := none }]
    received := []
    outputCloses := 0
    panicked := false }

/-- The run of `StreamMap` with `startIndex = 2^63 - 2`, concurrency 2 and a data channel
delivering 10, 20, 30. -/
def overflowConfig : Config Nat Nat Unit :=
  StartWithChan (2 ^ 63 - 2) [10, 20, 30] true 2 stopOnTen

/-- An interleaving of `overflowConfig`: the producer relays the first two elements. -/
def overflowSchedule : List Actor :=
  [.producer, .producer, .producer, .producer, .producer, .producer]

/-- The run of `StreamMap` with `startIndex = 50` (as in `TestStreamMap`), concurrency 2
and a data channel delivering 10, 20, 30. -/
def streamConfig : Config Nat Nat Unit := StartWithChan 50 [10, 20, 30] true 2 stopOnTen

/-- The state of `streamConfig` after the producer has relayed the first two elements. -/
def streamState : State Nat Nat Unit :=
  { willStop := false
    chInput := [{ index := 51, item := 10 }, { index := 52, item := 20 }]
    inputClosed := false
    chOutput := []
    outputClosed := false
    wg := 2
    producer := .loop
    next := 2
    idx := 52
    workers := [{ pc := .recv, consumed := [], emitted := [], dropped := [], checks := [] },
                { pc := .recv, consumed := [], emitted := [], dropped := [], checks := [] }]
    monitor := .wait
    reader := .read
    results := []
    sent := [{ index := 51, item := 10 }, { index := 52, item := 20 }]
    outputs := []
    received := []
    outputCloses := 0
    panicked := false }

/-- The run of `StreamMap` with `startIndex = 0`, concurrency 2 and `stopOnTen`, in which
the caller sends 10 on the data channel and leaves the channel open. -/
def leakConfig : Config Nat Nat Unit := StartWithChan 0 [10] false 2 stopOnTen

/-- An interleaving of `leakConfig`: the producer relays the element; worker 0 takes it,
maps it, sends the output, sets `willStop` and returns; the caller reads the output. -/
def leakSchedule : List Actor :=
  [.producer, .producer, .producer, .worker 0, .worker 0, .worker 0, .worker 0, .worker 0,
    .reader]

/-- The state `leakSchedule` leads to. -/
def leakState : State Nat Nat Unit :=
  { willStop := true
    chInput := []
    inputClosed := false
    chOutput := []
    outputClosed := false
    wg := 1
    producer := .loop
    next := 1
    idx := 1
    workers := [{ pc := .done
                  consumed := [{ index := 1, item := 10 }]
                  emitted := [{ Index := 1, Item := 10, OpType := Stop, Result := 10, Err := none }]
                  dropped := []
                  checks := [({ index := 1, item := 10 }, false)] },
                { pc := .recv, consumed := [], emitted := [], dropped := [], checks := [] }]
    monitor := .wait
    reader := .read
    results := [(1, some { Index := 1, Item := 10, OpType := Stop, Result := 10, Err := none })]
    sent := [{ index := 1, item := 10 }]
    outputs := [{ Index := 1, Item := 10, OpType := Stop, Result := 10, Err := none }]
    received := [{ Index := 1, Item := 10, OpType := Stop, Result := 10, Err := none }]
    outputCloses := 0
    panicked := false }

/-! ## map_test.go: the mappers of `TestMap`

An input string is represented by the pair `strconv.Atoi` returns on it: the number and
the error, `none` for nil (`"3"` is `(3, none)`, `"not"` is `(0, some ())`); the random
sleep is left out. -/

/-- The test helper `convertFunc`: `num, err := strconv.Atoi(id)`, the signal is
`opTypeWhenError` when `err != nil`, and `num`, the signal and `err` are returned. -/
def convertFunc (id : Int × Option Unit) (opTypeWhenError : OperationType) :
    Int × OperationType × Option Unit :=
  match id with
  | (num, err) => (num, if err ≠ none then opTypeWhenError else Continue, err)

/-- The test helper `convertStopFunc`. -/
def convertStopFunc : MapperFunc (Int × Option Unit) Int Unit := fun id => convertFunc id Stop

/-- The test helper `convertContinueFunc`. -/
def convertContinueFunc : MapperFunc (Int × Option Unit) Int Unit :=
  fun id => convertFunc id Continue

/-! ## reduce.go -/

/-- The type `ReducerFunc[T]`, without the context argument. -/
abbrev ReducerFunc (T E : Type) := T → T → T × OperationType × Option E

/-- The loop of `Reduce`. -/
def Reduce.loop {T E : Type} (accumulator : ReducerFunc T E) :
    List T → T × OperationType × Option E → T × OperationType × Option E
  | [], st => st
  | x :: rest, (result, _, _) =>
    match accumulator result x with
    | (result1, opCode, err) =>
      if Continue ≠ opCode then (result1, opCode, err)
      else Reduce.loop accumulator rest (result1, opCode, err)

/-- The function `Reduce`. -/
def Reduce {T E : Type} (identity : T) (inputs : List T) (accumulator : ReducerFunc T E) :
    T × OperationType × Option E :=
  Reduce.loop accumulator inputs (identity, Continue, none)

/-- The accumulated value after folding the results of the accumulator over a list. -/
def foldResult {T E : Type} (accumulator : ReducerFunc T E) (identity : T) (xs : List T) : T :=
  xs.foldl (fun acc x => (accumulator acc x).1) identity

/-! ## Lemmas on `ResultsMap` and `ConvertResult` -/

theorem ConvertResult_eq_loop {T R E : Type} (r : ResultsMap T R E) :
    ConvertResult r = ConvertResult.loop r (List.range r.length) ([], [], Continue) := by
  simp [ConvertResult, List.length_mergeSort, ResultsMap.keys]

theorem ResultsMap.get_nil {T R E : Type} (k : Int) :
    ResultsMap.get ([] : ResultsMap T R E) k = none := by
  simp [ResultsMap.get]

theorem ResultsMap.get_cons {T R E : Type} (k k' : Int) (v : Option (OutputItem T R E))
    (rest : ResultsMap T R E) :
    ResultsMap.get ((k', v) :: rest) k = if k = k' then v else ResultsMap.get rest k := by
  by_cases h : k = k'
  · subst h; simp [ResultsMap.get, List.lookup_cons]
  · have hb : (k == k') = false := by simpa using h
    simp [ResultsMap.get, List.lookup_cons, hb, h]

theorem ResultsMap.get_store_self {T R E : Type} (r : ResultsMap T R E) (k : Int)
    (v : Option (OutputItem T R E)) : ResultsMap.get (ResultsMap.store r k v) k = v := by
  induction r with
  | nil => simp [ResultsMap.store, ResultsMap.get_cons]
  | cons p rest ih =>
    obtain ⟨k', v'⟩ := p
    by_cases h : k' = k
    · simp [ResultsMap.store, h, ResultsMap.get_cons]
    · have h2 : ¬ k = k' := fun e => h e.symm
      simp [ResultsMap.store, h, ResultsMap.get_cons, h2, ih]

theorem ResultsMap.get_store_ne {T R E : Type} (r : ResultsMap T R E) (k j : Int)
    (v : Option (OutputItem T R E)) (hne : j ≠ k) :
    ResultsMap.get (ResultsMap.store r k v) j = ResultsMap.get r j := by
  induction r with
  | nil => simp [ResultsMap.store, ResultsMap.get_cons, hne, ResultsMap.get_nil]
  | cons p rest ih =>
    obtain ⟨k', v'⟩ := p
    by_cases h : k' = k
    · subst h; simp [ResultsMap.store, ResultsMap.get_cons, hne]
    · simp [ResultsMap.store, h, ResultsMap.get_cons, ih]

theorem ResultsMap.keys_store {T R E : Type} (r : ResultsMap T R E) (k : Int)
    (v : Option (OutputItem T R E)) :
    ResultsMap.keys (ResultsMap.store r k v) =
      if k ∈ ResultsMap.keys r then ResultsMap.keys r else ResultsMap.keys r ++ [k] := by
  induction r with
  | nil => simp [ResultsMap.store, ResultsMap.keys]
  | cons p rest ih =>
    obtain ⟨k', v'⟩ := p
    by_cases h : k' = k
    · subst h; simp [ResultsMap.store, ResultsMap.keys]
    · have h2 : ¬ k = k' := fun e => h e.symm
      simp only [ResultsMap.keys] at ih
      simp only [ResultsMap.store, h, ResultsMap.keys, if_false, List.map_cons, ih,
        List.mem_cons, h2, false_or]
      split <;> simp

theorem ResultsMap.length_keys {T R E : Type} (r : ResultsMap T R E) :
    (ResultsMap.keys r).length = r.length := by
  simp [ResultsMap.keys]

theorem ConvertResult.loop_append {T R E : Type} (r : ResultsMap T R E) (xs ys : List Nat)
    (acc : List R × List (Option E) × OperationType) :
    ConvertResult.loop r (xs ++ ys) acc =
      (ConvertResult.loop r xs acc).bind (ConvertResult.loop r ys) := by
  induction xs generalizing acc with
  | nil => simp [ConvertResult.loop]
  | cons x xs ih =>
    obtain ⟨results, errs, opType⟩ := acc
    simp only [List.cons_append, ConvertResult.loop]
    cases ResultsMap.get r (x : Int) with
    | none => simp
    | some o => simp [ih]

theorem lastSignal_append_singleton (ops : List OperationType) (op : OperationType) :
    lastSignal (ops ++ [op]) = if op ≠ Continue then op else lastSignal ops := by
  simp [lastSignal, List.foldl_append]

theorem lastSignal_all_continue (ops : List OperationType) (h : ∀ op ∈ ops, op = Continue) :
    lastSignal ops = Continue := by
  induction ops using List.reverseRecOn with
  | nil => rfl
  | append_singleton ops op ih =>
    rw [lastSignal_append_singleton]
    have h1 : op = Continue := h op (by simp)
    have h2 : lastSignal ops = Continue := ih (fun o ho => h o (by simp [ho]))
    simp [h1, h2]

theorem lastSignal_append_continue (ops rest : List OperationType)
    (h : ∀ op ∈ rest, op = Continue) : lastSignal (ops ++ rest) = lastSignal ops := by
  induction rest using List.reverseRecOn with
  | nil => simp
  | append_singleton rest op ih =>
    rw [← List.append_assoc, lastSignal_append_singleton]
    have h1 : op = Continue := h op (by simp)
    simp [h1, ih (fun o ho => h o (by simp [ho]))]

theorem ConvertResult.loop_range {T R E : Type} (r : ResultsMap T R E)
    (os : List (OutputItem T R E))
    (h : ∀ i (hi : i < os.length), ResultsMap.get r (i : Int) = some (os.get ⟨i, hi⟩))
    (n : Nat) (hn : n ≤ os.length) :
    ConvertResult.loop r (List.range n) ([], [], Continue) =
      some ((os.take n).map (fun o => o.Result), (os.take n).map (fun o => o.Err),
        lastSignal ((os.take n).map (fun o => o.OpType))) := by
  induction n with
  | zero => simp [ConvertResult.loop, lastSignal]
  | succ n ih =>
    have hlt : n < os.length := hn
    rw [List.range_succ, ConvertResult.loop_append, ih (Nat.le_of_lt hlt)]
    simp only [Option.bind_some, ConvertResult.loop, h n hlt]
    have ht : List.take (n + 1) os = List.take n os ++ [os.get ⟨n, hlt⟩] := by
      rw [List.take_succ]; simp [List.getElem?_eq_getElem hlt]
    simp only [ht, List.map_append, List.map_cons, List.map_nil, lastSignal_append_singleton]
    simp

theorem ConvertResult_dense {T R E : Type} (r : ResultsMap T R E)
    (os : List (OutputItem T R E)) (hlen : r.length = os.length)
    (h : ∀ i (hi : i < os.length), ResultsMap.get r (i : Int) = some (os.get ⟨i, hi⟩)) :
    ConvertResult r =
      some (os.map (fun o => o.Result), os.map (fun o => o.Err),
        lastSignal (os.map (fun o => o.OpType))) := by
  rw [ConvertResult_eq_loop, hlen, ConvertResult.loop_range r os h os.length (Nat.le_refl _)]
  simp

/-! ## Lemmas on `ReadMapperResult`, `Map` and the envelopes -/

theorem ReadMapperResult_append_singleton {T R E : Type} (l : List (OutputItem T R E))
    (o : OutputItem T R E) :
    ReadMapperResult (l ++ [o]) = ResultsMap.store (ReadMapperResult l) o.Index (some o) := by
  simp [ReadMapperResult, List.foldl_append]

theorem ReadMapperResult_keys {T R E : Type} (l : List (OutputItem T R E))
    (hnd : (l.map (fun o => o.Index)).Nodup) :
    ResultsMap.keys (ReadMapperResult l) = l.map (fun o => o.Index) := by
  induction l using List.reverseRecOn with
  | nil => rfl
  | append_singleton l o ih =>
    rw [List.map_append, List.nodup_append] at hnd
    obtain ⟨h1, _, h3⟩ := hnd
    rw [ReadMapperResult_append_singleton, ResultsMap.keys_store, ih h1]
    have hnot : o.Index ∉ l.map (fun o => o.Index) := by
      intro hmem
      exact h3 hmem (by simp)
    simp [hnot]

theorem ReadMapperResult_get {T R E : Type} (l : List (OutputItem T R E))
    (hnd : (l.map (fun o => o.Index)).Nodup) (o : OutputItem T R E) (ho : o ∈ l) :
    ResultsMap.get (ReadMapperResult l) o.Index = some o := by
  induction l using List.reverseRecOn with
  | nil => simp at ho
  | append_singleton l o' ih =>
    rw [List.map_append, List.nodup_append] at hnd
    obtain ⟨h1, _, h3⟩ := hnd
    rw [ReadMapperResult_append_singleton]
    rcases List.mem_append.1 ho with hl | hr
    · have hne : o.Index ≠ o'.Index := by
        intro e
        exact h3 (List.mem_map.2 ⟨o, hl, rfl⟩) (by simp [e])
      rw [ResultsMap.get_store_ne _ _ _ _ hne]
      exact ih h1 hl
    · have : o = o' := by simpa using hr
      subst this
      exact ResultsMap.get_store_self _ _ _

theorem envelopesFrom_length {T R E : Type} (mapper : MapperFunc T R E) (start : Nat)
    (xs : List T) : (envelopesFrom mapper start xs).length = xs.length := by
  induction xs generalizing start with
  | nil => rfl
  | cons x xs ih => simp [envelopesFrom, ih]

theorem envelopesFrom_get {T R E : Type} (mapper : MapperFunc T R E) (start : Nat)
    (xs : List T) (i : Nat) (hi : i < (envelopesFrom mapper start xs).length)
    (hx : i < xs.length) :
    (envelopesFrom mapper start xs).get ⟨i, hi⟩ =
      mkOutput mapper ((start + i : Nat) : Int) (xs.get ⟨i, hx⟩) := by
  induction xs generalizing start i with
  | nil => simp at hx
  | cons x xs ih =>
    cases i with
    | zero => simp [envelopesFrom]
    | succ i =>
      simp only [envelopesFrom, List.get_cons_succ]
      rw [ih (start + 1) i _ (by simpa using hx)]
      congr 2
      omega

theorem mkOutput_Index {T R E : Type} (mapper : MapperFunc T R E) (idx : Int) (x : T) :
    (mkOutput mapper idx x).Index = idx := rfl

theorem mkOutput_Result {T R E : Type} (mapper : MapperFunc T R E) (idx : Int) (x : T) :
    (mkOutput mapper idx x).Result = (mapper x).1 := rfl

theorem mkOutput_OpType {T R E : Type} (mapper : MapperFunc T R E) (idx : Int) (x : T) :
    (mkOutput mapper idx x).OpType = (mapper x).2.1 := rfl

theorem mkOutput_Err {T R E : Type} (mapper : MapperFunc T R E) (idx : Int) (x : T) :
    (mkOutput mapper idx x).Err = (mapper x).2.2 := rfl

theorem envelopesFrom_map_Index {T R E : Type} (mapper : MapperFunc T R E) (start : Nat)
    (xs : List T) :
    (envelopesFrom mapper start xs).map (fun o => o.Index) =
      (List.range' start xs.length).map (fun (i : Nat) => (i : Int)) := by
  induction xs generalizing start with
  | nil => rfl
  | cons x xs ih => simp [envelopesFrom, ih, List.range'_succ, mkOutput_Index]

theorem envelopesFrom_map_Result {T R E : Type} (mapper : MapperFunc T R E) (start : Nat)
    (xs : List T) :
    (envelopesFrom mapper start xs).map (fun o => o.Result) = xs.map (fun x => (mapper x).1) := by
  induction xs generalizing start with
  | nil => rfl
  | cons x xs ih => simp [envelopesFrom, ih, mkOutput_Result]

theorem envelopesFrom_map_Err {T R E : Type} (mapper : MapperFunc T R E) (start : Nat)
    (xs : List T) :
    (envelopesFrom mapper start xs).map (fun o => o.Err) = xs.map (fun x => (mapper x).2.2) := by
  induction xs generalizing start with
  | nil => rfl
  | cons x xs ih => simp [envelopesFrom, ih, mkOutput_Err]

theorem envelopesFrom_map_OpType {T R E : Type} (mapper : MapperFunc T R E) (start : Nat)
    (xs : List T) :
    (envelopesFrom mapper start xs).map (fun o => o.OpType) =
      xs.map (fun x => (mapper x).2.1) := by
  induction xs generalizing start with
  | nil => rfl
  | cons x xs ih => simp [envelopesFrom, ih, mkOutput_OpType]

theorem envelopesFrom_nodup {T R E : Type} (mapper : MapperFunc T R E) (start : Nat)
    (xs : List T) : ((envelopesFrom mapper start xs).map (fun o => o.Index)).Nodup := by
  rw [envelopesFrom_map_Index]
  exact (List.nodup_range' start xs.length).map (fun a b h => by exact_mod_cast h)

/-- Reading the envelopes of positions `0..n-1` in any arrival order and converting
yields the mapper's results, errors and last non-`Continue` signal in position order. -/
theorem ConvertResult_ReadMapperResult_perm {T R E : Type} (mapper : MapperFunc T R E)
    (xs : List T) (arrival : List (OutputItem T R E))
    (hperm : arrival.Perm (envelopesFrom mapper 0 xs)) :
    ConvertResult (ReadMapperResult arrival) =
      some (xs.map (fun x => (mapper x).1), xs.map (fun x => (mapper x).2.2),
        lastSignal (xs.map (fun x => (mapper x).2.1))) := by
  have hnd : (arrival.map (fun o => o.Index)).Nodup :=
    (hperm.map _).nodup_iff.2 (envelopesFrom_nodup mapper 0 xs)
  have hlen : (ReadMapperResult arrival).length = (envelopesFrom mapper 0 xs).length := by
    rw [← ResultsMap.length_keys, ReadMapperResult_keys arrival hnd, List.length_map,
      hperm.length_eq]
  have hget : ∀ i (hi : i < (envelopesFrom mapper 0 xs).length),
      ResultsMap.get (ReadMapperResult arrival) (i : Int) =
        some ((envelopesFrom mapper 0 xs).get ⟨i, hi⟩) := by
    intro i hi
    have hmem : (envelopesFrom mapper 0 xs).get ⟨i, hi⟩ ∈ arrival :=
      hperm.mem_iff.2 (List.get_mem _ _ _)
    have := ReadMapperResult_get arrival hnd _ hmem
    have hx : i < xs.length := by simpa [envelopesFrom_length] using hi
    rw [envelopesFrom_get mapper 0 xs i hi hx] at this ⊢
    simpa [mkOutput_Index] using this
  rw [ConvertResult_dense _ _ hlen hget, envelopesFrom_map_Result, envelopesFrom_map_Err,
    envelopesFrom_map_OpType]

theorem Map.loop_eq {T R E : Type} (mapper : MapperFunc T R E) (idx : Nat) (inputs : List T)
    (results : ResultsMap T R E) (calls : List T) :
    Map.loop mapper idx inputs (results, calls) =
      ((envelopesFrom mapper idx (takeUntilStop mapper inputs)).foldl
          (fun res o => ResultsMap.store res o.Index (some o)) results,
        calls ++ takeUntilStop mapper inputs) := by
  induction inputs generalizing idx results calls with
  | nil => simp [Map.loop, takeUntilStop, envelopesFrom]
  | cons x rest ih =>
    rcases hm : mapper x with ⟨r, op, err⟩
    by_cases hc : Continue ≠ op
    · simp [Map.loop, takeUntilStop, envelopesFrom, mkOutput, hm, hc]
    · simp [Map.loop, takeUntilStop, envelopesFrom, mkOutput, hm, hc, ih]

theorem Map_eq {T R E : Type} (inputs : List T) (mapper : MapperFunc T R E) :
    Map inputs mapper = ReadMapperResult (envelopesFrom mapper 0 (takeUntilStop mapper inputs)) := by
  simp [Map, Map.loop_eq, ReadMapperResult]

theorem Map.calls_eq {T R E : Type} (inputs : List T) (mapper : MapperFunc T R E) :
    Map.calls inputs mapper = takeUntilStop mapper inputs := by
  simp [Map.calls, Map.loop_eq]

theorem takeUntilStop_all {T R E : Type} (mapper : MapperFunc T R E) (inputs : List T)
    (h : ∀ i (hi : i < inputs.length), (mapper (inputs.get ⟨i, hi⟩)).2.1 = Continue) :
    takeUntilStop mapper inputs = inputs := by
  induction inputs with
  | nil => rfl
  | cons x rest ih =>
    have h0 : (mapper x).2.1 = Continue := h 0 (by simp)
    have hr : ∀ i (hi : i < rest.length), (mapper (rest.get ⟨i, hi⟩)).2.1 = Continue :=
      fun i hi => h (i + 1) (by simpa using hi)
    simp [takeUntilStop, h0, ih hr]

theorem takeUntilStop_stop {T R E : Type} (mapper : MapperFunc T R E) (inputs : List T)
    (k : Nat) (hk : k < inputs.length)
    (hbefore : ∀ i (hi : i < k), (mapper (inputs.get ⟨i, Nat.lt_trans hi hk⟩)).2.1 = Continue)
    (hstop : (mapper (inputs.get ⟨k, hk⟩)).2.1 ≠ Continue) :
    takeUntilStop mapper inputs = inputs.take (k + 1) := by
  induction inputs generalizing k with
  | nil => simp at hk
  | cons x rest ih =>
    cases k with
    | zero =>
      have h0 : ¬ Continue = (mapper x).2.1 := fun e => hstop (by simpa using e.symm)
      simp [takeUntilStop, h0]
    | succ k =>
      have h0 : (mapper x).2.1 = Continue := hbefore 0 (by omega)
      have hk2 : k < rest.length := by simpa using hk
      have hr : ∀ i (hi : i < k),
          (mapper (rest.get ⟨i, Nat.lt_trans hi hk2⟩)).2.1 = Continue :=
        fun i hi => hbefore (i + 1) (by omega)
      simp [takeUntilStop, h0, ih k hk2 hr (by simpa using hstop)]

theorem take_succ_eq_append_get {A : Type} (l : List A) (k : Nat) (hk : k < l.length) :
    l.take (k + 1) = l.take k ++ [l.get ⟨k, hk⟩] := by
  rw [List.take_succ]; simp [List.getElem?_eq_getElem hk]

/-! ## Claims on the sequential functions -/

/-- C1 (evaluation at failing inputs): on a collection whose only key is 51 (one collected
from `StreamMap` with `startIndex = 50`), and on a collection with keys 0 and 2 (a gap),
`ConvertResult` reads position numbers instead of the sorted keys, dereferences a nil
pointer and panics instead of returning sequences of length 1 and 2. -/
theorem ConvertResult_panics_off_dense_keys :
    ConvertResult
        ([(51, some { Index := 51, Item := 7, OpType := Continue, Result := 70, Err := none })] :
          ResultsMap Nat Nat Unit) = none ∧
      ConvertResult
        ([(0, some { Index := 0, Item := 1, OpType := Continue, Result := 10, Err := none }),
          (2, some { Index := 2, Item := 3, OpType := Continue, Result := 30, Err := none })] :
          ResultsMap Nat Nat Unit) = none := by
  constructor <;> rw [ConvertResult_eq_loop] <;> decide

/-- C2: when the mapper returns `Continue` on every input and the envelopes
`(i, mapper inputs[i])`, `i = 0..N-1`, arrive in any order, `ReadMapperResult` followed by
`ConvertResult` returns the mapper's results and errors in input order and `Continue`. -/
theorem order_reconstruction {T R E : Type} (inputs : List T) (mapper : MapperFunc T R E)
    (hcont : ∀ x ∈ inputs, (mapper x).2.1 = Continue)
    (arrival : List (OutputItem T R E))
    (hperm : arrival.Perm (envelopesFrom mapper 0 inputs)) :
    ConvertResult (ReadMapperResult arrival) =
      some (inputs.map (fun x => (mapper x).1), inputs.map (fun x => (mapper x).2.2),
        Continue) := by
  rw [ConvertResult_ReadMapperResult_perm mapper inputs arrival hperm,
    lastSignal_all_continue]
  intro op hop
  obtain ⟨x, hx, rfl⟩ := List.mem_map.1 hop
  exact hcont x hx

/-- C2 (witness): three envelopes arriving in the order 2, 0, 1. -/
theorem order_reconstruction_witness :
    ConvertResult (ReadMapperResult
        [mkOutput (fun (n : Nat) => (n * 10, Continue, (none : Option Unit))) 2 7,
          mkOutput (fun (n : Nat) => (n * 10, Continue, (none : Option Unit))) 0 5,
          mkOutput (fun (n : Nat) => (n * 10, Continue, (none : Option Unit))) 1 6]) =
      some ([50, 60, 70], [none, none, none], Continue) :=
  order_reconstruction [5, 6, 7] (fun (n : Nat) => (n * 10, Continue, (none : Option Unit)))
    (by intro x _; rfl) _ (by decide)

/-- C3: with `k` the least position at which the mapper returns a signal other than
`Continue`, `Map` followed by `ConvertResult` returns the mapper's results and errors on
`inputs[0..k]` (length `k+1`) and the mapper's signal at `k`, and the mapper is applied
exactly to `inputs[0..k]`; when there is no such position it returns the results and
errors on all inputs and `Continue`, and the mapper is applied to every input. Errors
play no part. -/
theorem Map_ConvertResult {T R E : Type} (inputs : List T) (mapper : MapperFunc T R E) :
    (∀ k (hk : k < inputs.length),
      (∀ i (hi : i < k), (mapper (inputs.get ⟨i, Nat.lt_trans hi hk⟩)).2.1 = Continue) →
      (mapper (inputs.get ⟨k, hk⟩)).2.1 ≠ Continue →
        ConvertResult (Map inputs mapper) =
            some ((inputs.take (k + 1)).map (fun x => (mapper x).1),
              (inputs.take (k + 1)).map (fun x => (mapper x).2.2),
              (mapper (inputs.get ⟨k, hk⟩)).2.1) ∧
          (inputs.take (k + 1)).length = k + 1 ∧
          Map.calls inputs mapper = inputs.take (k + 1)) ∧
    ((∀ i (hi : i < inputs.length), (mapper (inputs.get ⟨i, hi⟩)).2.1 = Continue) →
        ConvertResult (Map inputs mapper) =
            some (inputs.map (fun x => (mapper x).1), inputs.map (fun x => (mapper x).2.2),
              Continue) ∧
          Map.calls inputs mapper = inputs) := by
  constructor
  · intro k hk hbefore hstop
    have hp := takeUntilStop_stop mapper inputs k hk hbefore hstop
    refine ⟨?_, by simp; omega, by rw [Map.calls_eq, hp]⟩
    rw [Map_eq, hp, ConvertResult_ReadMapperResult_perm mapper _ _ (List.Perm.refl _)]
    have hsig : lastSignal ((inputs.take (k + 1)).map (fun x => (mapper x).2.1)) =
        (mapper (inputs.get ⟨k, hk⟩)).2.1 := by
      rw [take_succ_eq_append_get inputs k hk, List.map_append, List.map_singleton,
        lastSignal_append_singleton]
      exact if_pos hstop
    rw [hsig]
  · intro hall
    have hp := takeUntilStop_all mapper inputs hall
    refine ⟨?_, by rw [Map.calls_eq, hp]⟩
    rw [Map_eq, hp, ConvertResult_ReadMapperResult_perm mapper _ _ (List.Perm.refl _),
      lastSignal_all_continue]
    intro op hop
    obtain ⟨x, hx, rfl⟩ := List.mem_map.1 hop
    obtain ⟨n, hn, rfl⟩ := List.getElem_of_mem hx
    exact hall n hn

/-- C3 (witness): the cases "error with stop" (inputs `"1"`, `"2"`, `"3"`, `"not_exist"`,
`"4"`, `"5"`, `"6"`) and "error with continue" (inputs `"1"`, `"not"`, `"3"`) of
`TestMap`. -/
theorem Map_ConvertResult_witness :
    (ConvertResult (Map [(1, none), (2, none), (3, none), (0, some ()), (4, none), (5, none),
            (6, none)] convertStopFunc) =
          some ([1, 2, 3, 0], [none, none, none, some ()], Stop) ∧
        [((1 : Int), (none : Option Unit)), (2, none), (3, none), (0, some ())].length = 4 ∧
        Map.calls [(1, none), (2, none), (3, none), (0, some ()), (4, none), (5, none),
            (6, none)] convertStopFunc =
          [(1, none), (2, none), (3, none), (0, some ())]) ∧
      (ConvertResult (Map [(1, none), (0, some ()), (3, none)] convertContinueFunc) =
          some ([1, 0, 3], [none, some (), none], Continue) ∧
        Map.calls [(1, none), (0, some ()), (3, none)] convertContinueFunc =
          [(1, none), (0, some ()), (3, none)]) :=
  ⟨(Map_ConvertResult [(1, none), (2, none), (3, none), (0, some ()), (4, none), (5, none),
      (6, none)] convertStopFunc).1 3 (by decide) (by decide) (by decide),
    (Map_ConvertResult [(1, none), (0, some ()), (3, none)] convertContinueFunc).2
      (by decide)⟩

theorem lastSignal_eq_continue_iff (ops : List OperationType) :
    lastSignal ops = Continue ↔ ∀ op ∈ ops, op = Continue := by
  induction ops using List.reverseRecOn with
  | nil => simp [lastSignal]
  | append_singleton ops op ih =>
    rw [lastSignal_append_singleton]
    by_cases h : op = Continue
    · simp only [h, ne_eq, not_true_eq_false, if_false, ih, List.mem_append,
        List.mem_singleton]
      constructor
      · rintro hall o (ho | ho)
        · exact hall o ho
        · exact ho
      · intro hall o ho
        exact hall o (Or.inl ho)
    · simp only [ne_eq, h, not_false_eq_true, if_true, false_iff]
      intro hall
      exact h (hall op (by simp))

theorem lastSignal_mem (ops : List OperationType) (h : lastSignal ops ≠ Continue) :
    lastSignal ops ∈ ops := by
  induction ops using List.reverseRecOn with
  | nil => exact absurd rfl h
  | append_singleton ops op ih =>
    rw [lastSignal_append_singleton] at h ⊢
    by_cases hc : op = Continue
    · simp only [hc, ne_eq, not_true_eq_false, if_false] at h ⊢
      exact List.mem_append_left _ (ih h)
    · simp [hc]

/-- C4 (counterexample): with the signals `Stop` under key 0 and `2` under key 1 the
overall signal is `2`, not `Stop`, although one entry signals `Stop`. -/
theorem ConvertResult_signal_not_stop :
    ConvertResult
        ([(0, some { Index := 0, Item := 1, OpType := Stop, Result := 10, Err := none }),
          (1, some { Index := 1, Item := 2, OpType := 2, Result := 20, Err := none })] :
          ResultsMap Nat Nat Unit) = some ([10, 20], [none, none], 2) ∧
      (2 : OperationType) ≠ Stop := by
  constructor
  · rw [ConvertResult_eq_loop]; decide
  · decide

/-- C4 (amended): for a collection with keys exactly `0..M-1` holding `os[i]` under key
`i`, the overall signal of `ConvertResult` is `Continue` when every entry signals
`Continue`, and otherwise the signal of the entry with the largest key whose signal is
not `Continue`; so when every signal is `Continue` or `Stop` it is `Stop` if at least one
entry signals `Stop` and `Continue` otherwise. -/
theorem ConvertResult_signal {T R E : Type} (r : ResultsMap T R E)
    (os : List (OutputItem T R E))
    (hkeys : (ResultsMap.keys r).Perm ((List.range os.length).map (fun (i : Nat) => (i : Int))))
    (hentries : ∀ i (hi : i < os.length), ResultsMap.get r (i : Int) = some (os.get ⟨i, hi⟩)) :
    ∃ sig, ConvertResult r = some (os.map (fun o => o.Result), os.map (fun o => o.Err), sig) ∧
      ((∀ o ∈ os, o.OpType = Continue) → sig = Continue) ∧
      (∀ k (hk : k < os.length), (os.get ⟨k, hk⟩).OpType ≠ Continue →
        (∀ j (hj : j < os.length), k < j → (os.get ⟨j, hj⟩).OpType = Continue) →
          sig = (os.get ⟨k, hk⟩).OpType) ∧
      ((∀ o ∈ os, o.OpType = Continue ∨ o.OpType = Stop) →
        (sig = Stop ↔ ∃ o ∈ os, o.OpType = Stop) ∧
          (sig = Continue ↔ ¬ ∃ o ∈ os, o.OpType = Stop)) := by
  have hlen : r.length = os.length := by
    rw [← ResultsMap.length_keys, hkeys.length_eq]; simp
  refine ⟨lastSignal (os.map (fun o => o.OpType)), ConvertResult_dense r os hlen hentries,
    ?_, ?_, ?_⟩
  · intro hall
    apply lastSignal_all_continue
    intro op hop
    obtain ⟨o, ho, rfl⟩ := List.mem_map.1 hop
    exact hall o ho
  · intro k hk hne hafter
    have hsplit : os = os.take k ++ [os.get ⟨k, hk⟩] ++ os.drop (k + 1) := by
      rw [← take_succ_eq_append_get os k hk, List.take_append_drop]
    have htail : ∀ op ∈ (os.drop (k + 1)).map (fun o => o.OpType), op = Continue := by
      intro op hop
      obtain ⟨o, ho, rfl⟩ := List.mem_map.1 hop
      obtain ⟨n, hn, rfl⟩ := List.getElem_of_mem ho
      rw [List.getElem_drop]
      have hn2 : n < os.length - (k + 1) := by simpa using hn
      exact hafter (k + 1 + n) (by omega) (by omega)
    conv_lhs => rw [hsplit]
    rw [List.map_append, lastSignal_append_continue _ _ htail, List.map_append,
      List.map_singleton, lastSignal_append_singleton]
    exact if_pos hne
  · intro hbin
    have hne : Stop ≠ Continue := by decide
    have hiff := lastSignal_eq_continue_iff (os.map (fun o => o.OpType))
    constructor
    · constructor
      · intro hs
        have hm := lastSignal_mem (os.map (fun o => o.OpType)) (by rw [hs]; exact hne)
        obtain ⟨o, ho, he⟩ := List.mem_map.1 hm
        exact ⟨o, ho, he.trans hs⟩
      · rintro ⟨o, ho, hs⟩
        have hnc : lastSignal (os.map (fun o => o.OpType)) ≠ Continue := by
          intro hc
          have := hiff.1 hc o.OpType (List.mem_map.2 ⟨o, ho, rfl⟩)
          rw [hs] at this
          exact hne this
        have hm := lastSignal_mem _ hnc
        obtain ⟨o2, ho2, he⟩ := List.mem_map.1 hm
        rcases hbin o2 ho2 with h1 | h1
        · exact absurd (he.symm.trans h1) hnc
        · exact he.symm.trans h1
    · constructor
      · rintro hc ⟨o, ho, hs⟩
        have := hiff.1 hc o.OpType (List.mem_map.2 ⟨o, ho, rfl⟩)
        rw [hs] at this
        exact hne this
      · intro hno
        apply hiff.2
        intro op hop
        obtain ⟨o, ho, rfl⟩ := List.mem_map.1 hop
        rcases hbin o ho with h1 | h1
        · exact h1
        · exact absurd ⟨o, ho, h1⟩ hno

/-- C4 (witness): keys 0 and 1 stored in the order 1, 0, with signals `Stop` and
`Continue`: the overall signal is `Stop`. -/
theorem ConvertResult_signal_witness :
    ∃ sig, ConvertResult
        ([(1, some { Index := 1, Item := 2, OpType := Continue, Result := 20, Err := none }),
          (0, some { Index := 0, Item := 1, OpType := Stop, Result := 10, Err := none })] :
          ResultsMap Nat Nat Unit) = some ([10, 20], [none, none], sig) ∧ sig = Stop := by
  obtain ⟨sig, h1, _, h3, _⟩ := ConvertResult_signal
    ([(1, some { Index := 1, Item := 2, OpType := Continue, Result := 20, Err := none }),
      (0, some { Index := 0, Item := 1, OpType := Stop, Result := 10, Err := none })] :
      ResultsMap Nat Nat Unit)
    [{ Index := 0, Item := 1, OpType := Stop, Result := 10, Err := none },
      { Index := 1, Item := 2, OpType := Continue, Result := 20, Err := none }]
    (by decide) (by decide)
  exact ⟨sig, h1, h3 0 (by decide) (by decide) (by decide)⟩

/-! ## Claims on `Reduce` -/

theorem foldResult_append_singleton {T E : Type} (accumulator : ReducerFunc T E) (identity : T)
    (xs : List T) (x : T) :
    foldResult accumulator identity (xs ++ [x]) =
      (accumulator (foldResult accumulator identity xs) x).1 := by
  simp [foldResult, List.foldl_append]

theorem Reduce.loop_stop {T E : Type} (accumulator : ReducerFunc T E) (inputs : List T)
    (st : T × OperationType × Option E) (k : Nat) (hk : k < inputs.length)
    (hbefore : ∀ i (hi : i < k),
      (accumulator (foldResult accumulator st.1 (inputs.take i))
        (inputs.get ⟨i, Nat.lt_trans hi hk⟩)).2.1 = Continue)
    (hstop : (accumulator (foldResult accumulator st.1 (inputs.take k))
        (inputs.get ⟨k, hk⟩)).2.1 ≠ Continue) :
    Reduce.loop accumulator inputs st =
      accumulator (foldResult accumulator st.1 (inputs.take k)) (inputs.get ⟨k, hk⟩) := by
  induction inputs generalizing st k with
  | nil => simp at hk
  | cons x rest ih =>
    obtain ⟨result, op0, err0⟩ := st
    rcases ha : accumulator result x with ⟨result1, opCode, err⟩
    cases k with
    | zero =>
      have h0 : Continue ≠ opCode := by
        intro e
        apply hstop
        simp [foldResult, ha, e]
      simp [Reduce.loop, ha, h0, foldResult]
    | succ k =>
      have h0 : opCode = Continue := by
        have := hbefore 0 (by omega)
        simpa [foldResult, ha] using this
      have hk2 : k < rest.length := by simpa using hk
      have hfold : ∀ n, foldResult accumulator result ((x :: rest).take (n + 1)) =
          foldResult accumulator result1 (rest.take n) := by
        intro n; simp [foldResult, ha]
      have := ih (result1, opCode, err) k hk2
        (fun i hi => by
          have := hbefore (i + 1) (by omega)
          rw [hfold] at this
          simpa using this)
        (by rw [hfold] at hstop; simpa using hstop)
      simp only [Reduce.loop, ha, h0, ne_eq, not_true_eq_false, if_false]
      rw [h0] at this
      rw [this, hfold]
      simp

theorem Reduce.loop_all {T E : Type} (accumulator : ReducerFunc T E) (inputs : List T)
    (st : T × OperationType × Option E) (hne : 0 < inputs.length)
    (hall : ∀ i (hi : i < inputs.length),
      (accumulator (foldResult accumulator st.1 (inputs.take i))
        (inputs.get ⟨i, hi⟩)).2.1 = Continue) :
    Reduce.loop accumulator inputs st =
      accumulator (foldResult accumulator st.1 (inputs.take (inputs.length - 1)))
        (inputs.get ⟨inputs.length - 1, by omega⟩) := by
  induction inputs generalizing st with
  | nil => simp at hne
  | cons x rest ih =>
    obtain ⟨result, op0, err0⟩ := st
    rcases ha : accumulator result x with ⟨result1, opCode, err⟩
    have h0 : opCode = Continue := by
      have := hall 0 (by simp)
      simpa [foldResult, ha] using this
    have hfold : ∀ n, foldResult accumulator result ((x :: rest).take (n + 1)) =
        foldResult accumulator result1 (rest.take n) := by
      intro n; simp [foldResult, ha]
    simp only [Reduce.loop, ha, h0, ne_eq, not_true_eq_false, if_false]
    cases rest with
    | nil => simp [Reduce.loop, foldResult, ha, h0]
    | cons y rest2 =>
      have := ih (result1, Continue, err) (by simp)
        (fun i hi => by
          have := hall (i + 1) (by simpa using hi)
          rw [hfold] at this
          simpa using this)
      rw [this]
      have hl : (x :: y :: rest2).length - 1 = (y :: rest2).length - 1 + 1 := by simp
      simp only [hl, hfold]
      simp

/-- C8: `Reduce` on the empty list returns the identity, `Continue` and nil; when the
first accumulator call returning a signal other than `Continue` is the one on
`inputs[k]`, it returns that call's triple, whose result is the left fold over
`inputs[0..k]`; when every call returns `Continue` on a non-empty list it returns the
triple of the last call, whose result is the left fold over all inputs and whose signal
is `Continue`; the sum of 1..10 from 0 is 55. -/
theorem Reduce_fold {T E : Type} (identity : T) (inputs : List T)
    (accumulator : ReducerFunc T E) :
    Reduce identity ([] : List T) accumulator = (identity, Continue, none) ∧
    (∀ k (hk : k < inputs.length),
      (∀ i (hi : i < k),
        (accumulator (foldResult accumulator identity (inputs.take i))
          (inputs.get ⟨i, Nat.lt_trans hi hk⟩)).2.1 = Continue) →
      (accumulator (foldResult accumulator identity (inputs.take k))
        (inputs.get ⟨k, hk⟩)).2.1 ≠ Continue →
        Reduce identity inputs accumulator =
            accumulator (foldResult accumulator identity (inputs.take k))
              (inputs.get ⟨k, hk⟩) ∧
          (Reduce identity inputs accumulator).1 =
            foldResult accumulator identity (inputs.take (k + 1))) ∧
    (∀ (hne : 0 < inputs.length),
      (∀ i (hi : i < inputs.length),
        (accumulator (foldResult accumulator identity (inputs.take i))
          (inputs.get ⟨i, hi⟩)).2.1 = Continue) →
        Reduce identity inputs accumulator =
            accumulator (foldResult accumulator identity (inputs.take (inputs.length - 1)))
              (inputs.get ⟨inputs.length - 1, by omega⟩) ∧
          (Reduce identity inputs accumulator).1 = foldResult accumulator identity inputs ∧
          (Reduce identity inputs accumulator).2.1 = Continue) ∧
    Reduce 0 [1, 2, 3, 4, 5, 6, 7, 8, 9, 10]
        (fun t1 t2 => (t1 + t2, Continue, (none : Option Unit))) = (55, Continue, none) := by
  refine ⟨rfl, ?_, ?_, by decide⟩
  · intro k hk hbefore hstop
    have h := Reduce.loop_stop accumulator inputs (identity, Continue, none) k hk hbefore hstop
    refine ⟨h, ?_⟩
    rw [take_succ_eq_append_get inputs k hk, foldResult_append_singleton]
    exact congrArg Prod.fst h
  · intro hne hall
    have h := Reduce.loop_all accumulator inputs (identity, Continue, none) hne hall
    have hlast : inputs.length - 1 < inputs.length := by omega
    have hsplit : inputs = inputs.take (inputs.length - 1) ++
        [inputs.get ⟨inputs.length - 1, hlast⟩] := by
      rw [← take_succ_eq_append_get inputs _ hlast]
      rw [List.take_of_length_le (by omega)]
    refine ⟨h, ?_, ?_⟩
    · conv_rhs => rw [hsplit]
      rw [foldResult_append_singleton]
      exact congrArg Prod.fst h
    · have := hall (inputs.length - 1) hlast
      rw [← this]
      exact congrArg (fun t => t.2.1) h

/-- C8 (witness): the accumulators of `TestReduceSumInt`, and a sum that stops at the
first element above 2. -/
theorem Reduce_fold_witness :
    (Reduce 0 [1, 2, 3, 4]
          (fun t1 t2 => (t1 + t2, if t2 > 2 then Stop else Continue, (none : Option Unit))) =
        (6, Stop, none)) ∧
      (Reduce 0 [1, 2, 3, 4] (fun t1 t2 => (t1 + t2, Continue, (none : Option Unit)))).1 = 10 :=
  ⟨((Reduce_fold 0 [1, 2, 3, 4]
      (fun t1 t2 => (t1 + t2, if t2 > 2 then Stop else Continue, (none : Option Unit)))).2.1
        2 (by decide) (by decide) (by decide)).1,
    ((Reduce_fold 0 [1, 2, 3, 4]
      (fun t1 t2 => (t1 + t2, Continue, (none : Option Unit)))).2.2.1
        (by decide) (by decide)).2.1⟩

/-! ## The interleaving model: steps and reachable states -/

theorem step_Step {T R E : Type} (cfg : Config T R E) (a : Actor) (s s1 : State T R E)
    (h : step cfg a s = some s1) : Step cfg s s1 := by
  unfold step at h
  by_cases hp : s.panicked = true
  · simp [hp] at h
  · have hnp : s.panicked = false := by simpa using hp
    rw [if_neg hp] at h
    cases a with
    | producer =>
      simp only [producerStep] at h
      split at h
      · rename_i hpc
        split at h
        · rename_i inputs hsrc
          split at h
          · rename_i hget
            cases h
            exact Step.sliceEnd s inputs hnp hsrc hpc hget
          · rename_i item hget
            by_cases hst : s.willStop = true
            · rw [if_pos hst] at h
              cases h
              exact Step.sliceStop s inputs item hnp hsrc hpc hget hst
            · have hst2 : s.willStop = false := by simpa using hst
              rw [if_neg hst] at h
              cases h
              exact Step.sliceNext s inputs item hnp hsrc hpc hget hst2
        · rename_i startIndex chData closes hsrc
          split at h
          · rename_i hget
            cases closes with
            | false => simp at h
            | true =>
              rw [if_pos rfl] at h
              cases h
              exact Step.chanEnd s startIndex chData hnp hsrc hpc hget
          · rename_i inData hget
            cases h
            exact Step.chanRecv s startIndex chData closes inData hnp hsrc hpc hget
      · rename_i inData hpc
        by_cases hst : s.willStop = true
        · rw [if_pos hst] at h
          cases h
          exact Step.checkStop s inData hnp hpc hst
        · have hst2 : s.willStop = false := by simpa using hst
          rw [if_neg hst] at h
          cases h
          exact Step.checkGo s inData hnp hpc hst2
      · rename_i e hpc
        by_cases hroom : s.chInput.length < cfg.concurrency
        · rw [if_pos hroom] at h
          cases h
          exact Step.prodSend s e hnp hpc hroom
        · simp [hroom] at h
      · rename_i hpc
        cases h
        exact Step.prodClose s hnp hpc
      · simp at h
    | worker i =>
      simp only [workerFunc] at h
      split at h
      · simp at h
      · rename_i w hw
        split at h
        · rename_i hpc
          split at h
          · rename_i inputItem rest hch
            cases h
            exact Step.wRecv s i w inputItem rest hnp hw hpc hch
          · rename_i hch
            by_cases hcl : s.inputClosed = true
            · rw [if_pos hcl] at h
              cases h
              exact Step.wClosed s i w hnp hw hpc hch hcl
            · simp [hcl] at h
        · rename_i inputItem hpc
          by_cases hst : s.willStop = true
          · rw [if_pos hst] at h
            cases h
            exact Step.wCheckStop s i w inputItem hnp hw hpc hst
          · have hst2 : s.willStop = false := by simpa using hst
            rw [if_neg hst] at h
            cases h
            exact Step.wCheckGo s i w inputItem hnp hw hpc hst2
        · rename_i out hpc
          by_cases hcl : s.outputClosed = true
          · rw [if_pos hcl] at h
            cases h
            exact Step.wSendPanic s i w out hnp hw hpc hcl
          · have hcl2 : s.outputClosed = false := by simpa using hcl
            by_cases hroom : s.chOutput.length < cfg.concurrency
            · rw [if_neg hcl, if_pos hroom] at h
              cases h
              exact Step.wSend s i w out hnp hw hpc hcl2 hroom
            · simp [hcl2, hroom] at h
        · rename_i hpc
          cases h
          exact Step.wStore s i w hnp hw hpc
        · rename_i hpc
          cases h
          exact Step.wExit s i w hnp hw hpc
        · simp at h
    | monitor =>
      simp only [monitorStep] at h
      split at h
      · rename_i hpc
        by_cases hwg : s.wg = 0
        · rw [if_pos hwg] at h
          cases h
          exact Step.mWait s hnp hpc hwg
        · simp [hwg] at h
      · rename_i hpc
        by_cases hcl : s.outputClosed = true
        · rw [if_pos hcl] at h
          cases h
          exact Step.mClosePanic s hnp hpc hcl
        · have hcl2 : s.outputClosed = false := by simpa using hcl
          rw [if_neg hcl] at h
          cases h
          exact Step.mClose s hnp hpc hcl2
      · simp at h
    | reader =>
      simp only [readerStep] at h
      split at h
      · rename_i hpc
        split at h
        · rename_i outputs rest hch
          cases h
          exact Step.rRead s outputs rest hnp hpc hch
        · rename_i hch
          by_cases hcl : s.outputClosed = true
          · rw [if_pos hcl] at h
            cases h
            exact Step.rReturn s hnp hpc hch hcl
          · simp [hcl] at h
      · simp at h

/-- A property that holds initially and is preserved by every step holds after every
run. -/
theorem run_invariant {T R E : Type} (cfg : Config T R E) (P : State T R E → Prop)
    (hstep : ∀ s s1, P s → Step cfg s s1 → P s1) :
    ∀ (sched : List Actor) (s0 s : State T R E), P s0 → run cfg sched s0 = some s → P s := by
  intro sched
  induction sched with
  | nil =>
    intro s0 s h0 hrun
    simp only [run, Option.some.injEq] at hrun
    subst hrun
    exact h0
  | cons a rest ih =>
    intro s0 s h0 hrun
    simp only [run] at hrun
    split at hrun
    · simp at hrun
    · rename_i s1 hs1
      exact ih s1 s (hstep s0 s1 h0 (step_Step cfg a s0 s1 hs1)) hrun

theorem Reachable.invariant {T R E : Type} (cfg : Config T R E) (P : State T R E → Prop)
    (hinit : P (init cfg)) (hstep : ∀ s s1, P s → Step cfg s s1 → P s1)
    (s : State T R E) (hs : Reachable cfg s) : P s := by
  obtain ⟨sched, hrun⟩ := hs
  exact run_invariant cfg P hstep sched (init cfg) s hinit hrun

/-! ## Closing of the output channel -/

theorem getElem?_some_mem {A : Type} {l : List A} {i : Nat} {a : A} (h : l[i]? = some a) :
    a ∈ l := by
  obtain ⟨hi, he⟩ := List.getElem?_eq_some.1 h
  exact he ▸ List.getElem_mem hi

theorem countP_live_set {T R E : Type} (l : List (Worker T R E)) (i : Nat)
    (w w1 : Worker T R E) (hw : l[i]? = some w) (hlive : w.live = true) :
    (l.set i w1).countP Worker.live + 1 =
      l.countP Worker.live + (if w1.live = true then 1 else 0) := by
  obtain ⟨hi, he⟩ := List.getElem?_eq_some.1 hw
  rw [List.countP_set _ _ _ _ hi, he, hlive]
  have hpos : 0 < l.countP Worker.live :=
    List.countP_pos_iff.2 ⟨w, getElem?_some_mem hw, hlive⟩
  simp only [if_true]
  omega

theorem all_done_of_countP_zero {T R E : Type} (l : List (Worker T R E))
    (hz : l.countP Worker.live = 0) : ∀ w ∈ l, w.pc = .done := by
  intro w hw
  have := List.countP_eq_zero.1 hz w hw
  cases hpc : w.pc <;> simp [Worker.live, hpc] at this ⊢

theorem countP_zero_of_all_done {T R E : Type} (l : List (Worker T R E))
    (h : ∀ w ∈ l, w.pc = .done) : l.countP Worker.live = 0 := by
  apply List.countP_eq_zero.2
  intro w hw
  simp [Worker.live, h w hw]

theorem CloseInv.monitor_wait {T R E : Type} {cfg : Config T R E} {s : State T R E}
    (h : CloseInv cfg s) (i : Nat) (w : Worker T R E) (hw : s.workers[i]? = some w)
    (hlive : w.live = true) : s.monitor = .wait ∧ s.outputClosed = false ∧ s.outputCloses = 0 := by
  have hpos : 0 < s.workers.countP Worker.live :=
    List.countP_pos_iff.2 ⟨w, getElem?_some_mem hw, hlive⟩
  have hmon := h.mon
  have hwg := h.wg
  cases hm : s.monitor with
  | wait => rw [hm] at hmon; exact ⟨rfl, hmon⟩
  | close => rw [hm] at hmon; omega
  | done => rw [hm] at hmon; omega

theorem CloseInv.worker_update {T R E : Type} {cfg : Config T R E} {s : State T R E}
    (h : CloseInv cfg s) (i : Nat) (w w1 : Worker T R E) (hw : s.workers[i]? = some w)
    (hlive : w.live = true) (s1 : State T R E) (hnp1 : s1.panicked = false)
    (hworkers : s1.workers = s.workers.set i w1)
    (hwg1 : s1.wg = if w1.live = true then s.wg else s.wg - 1)
    (hmon1 : s1.monitor = s.monitor) (hoc : s1.outputClosed = s.outputClosed)
    (hcl : s1.outputCloses = s.outputCloses) : CloseInv cfg s1 := by
  obtain ⟨hm, hc1, hc2⟩ := h.monitor_wait i w hw hlive
  have hcount := countP_live_set s.workers i w w1 hw hlive
  have hwg := h.wg
  refine ⟨hnp1, ?_, ?_, ?_⟩
  · rw [hworkers, List.length_set]; exact h.len
  · rw [hworkers, hwg1]
    split
    · rename_i hl
      rw [if_pos hl] at hcount
      omega
    · rename_i hl
      rw [if_neg hl] at hcount
      omega
  · rw [hmon1, hm, hoc, hcl]
    exact ⟨hc1, hc2⟩

theorem closeInv_init {T R E : Type} (cfg : Config T R E) : CloseInv cfg (init cfg) := by
  refine ⟨rfl, by simp [MapReduce.init], ?_, ⟨rfl, rfl⟩⟩
  simp [MapReduce.init, List.countP_replicate, Worker.live]

theorem closeInv_step {T R E : Type} {cfg : Config T R E} {s s1 : State T R E}
    (h : CloseInv cfg s) (hstep : Step cfg s s1) : CloseInv cfg s1 := by
  cases hstep with
  | sliceEnd => exact ⟨h.np, h.len, h.wg, h.mon⟩
  | sliceStop => exact ⟨h.np, h.len, h.wg, h.mon⟩
  | sliceNext => exact ⟨h.np, h.len, h.wg, h.mon⟩
  | chanEnd => exact ⟨h.np, h.len, h.wg, h.mon⟩
  | chanRecv => exact ⟨h.np, h.len, h.wg, h.mon⟩
  | checkStop => exact ⟨h.np, h.len, h.wg, h.mon⟩
  | checkGo => exact ⟨h.np, h.len, h.wg, h.mon⟩
  | prodSend => exact ⟨h.np, h.len, h.wg, h.mon⟩
  | prodClose => exact ⟨h.np, h.len, h.wg, h.mon⟩
  | wRecv i w inputItem rest hnp hw hpc hch =>
    exact h.worker_update i w _ hw (by simp [Worker.live, hpc]) _ hnp rfl
      (by simp [Worker.live]) rfl rfl rfl
  | wClosed i w hnp hw hpc hch hcl =>
    exact h.worker_update i w _ hw (by simp [Worker.live, hpc]) _ hnp rfl
      (by simp [Worker.live]) rfl rfl rfl
  | wCheckStop i w inputItem hnp hw hpc hstop =>
    exact h.worker_update i w _ hw (by simp [Worker.live, hpc]) _ hnp rfl
      (by simp [Worker.live]) rfl rfl rfl
  | wCheckGo i w inputItem hnp hw hpc hstop =>
    exact h.worker_update i w _ hw (by simp [Worker.live, hpc]) _ hnp rfl
      (by simp [Worker.live]) rfl rfl rfl
  | wSendPanic i w out hnp hw hpc hcl =>
    have := (h.monitor_wait i w hw (by simp [Worker.live, hpc])).2.1
    rw [hcl] at this
    exact absurd this (by simp)
  | wSend i w out hnp hw hpc hcl hroom =>
    refine h.worker_update i w _ hw (by simp [Worker.live, hpc]) _ hnp rfl ?_ rfl rfl rfl
    by_cases hc : Continue ≠ out.OpType
    · simp [Worker.live, hc]
    · simp [Worker.live, hc]
  | wStore i w hnp hw hpc =>
    exact h.worker_update i w _ hw (by simp [Worker.live, hpc]) _ hnp rfl
      (by simp [Worker.live]) rfl rfl rfl
  | wExit i w hnp hw hpc =>
    exact h.worker_update i w _ hw (by simp [Worker.live, hpc]) _ hnp rfl
      (by simp [Worker.live]) rfl rfl rfl
  | mWait hnp hpc hwg =>
    have hmon := h.mon
    rw [hpc] at hmon
    exact ⟨hnp, h.len, h.wg, ⟨hwg, hmon⟩⟩
  | mClosePanic hnp hpc hcl =>
    have hmon := h.mon
    rw [hpc] at hmon
    rw [hcl] at hmon
    exact absurd hmon.2.1 (by simp)
  | mClose hnp hpc hcl =>
    have hmon := h.mon
    rw [hpc] at hmon
    refine ⟨hnp, h.len, h.wg, ?_⟩
    show s.wg = 0 ∧ true = true ∧ s.outputCloses + 1 = 1
    exact ⟨hmon.1, rfl, by rw [hmon.2.2]⟩
  | rRead => exact ⟨h.np, h.len, h.wg, h.mon⟩
  | rReturn => exact ⟨h.np, h.len, h.wg, h.mon⟩

theorem closeInv_reachable {T R E : Type} (cfg : Config T R E) (s : State T R E)
    (hs : Reachable cfg s) : CloseInv cfg s :=
  Reachable.invariant cfg (CloseInv cfg) (closeInv_init cfg) (fun _ _ h hst => closeInv_step h hst) s hs

theorem closed_of_ne {T : Type} {ic : Bool} {p p1 : ProducerPc T}
    (hclosed : ic = true ↔ p = .done) (hp : p ≠ .done) (hp1 : p1 ≠ .done) :
    ic = true ↔ p1 = .done :=
  ⟨fun h => absurd (hclosed.1 h) hp, fun h => absurd h hp1⟩

theorem flowInv_init {T R E : Type} (cfg : Config T R E) : FlowInv (init cfg) := by
  refine ⟨?_, ?_⟩
  · constructor <;> intro h <;> cases h
  · intro h; cases h

theorem flowInv_step {T R E : Type} {cfg : Config T R E} {s s1 : State T R E}
    (h : FlowInv s) (hstep : Step cfg s s1) : FlowInv s1 := by
  obtain ⟨hclosed, hret⟩ := h
  cases hstep with
  | sliceEnd inputs hnp hsrc hpc hget =>
    exact ⟨closed_of_ne hclosed (by rw [hpc]; simp) (by simp), hret⟩
  | sliceStop inputs item hnp hsrc hpc hget hstop =>
    exact ⟨closed_of_ne hclosed (by rw [hpc]; simp) (by simp), hret⟩
  | sliceNext inputs item hnp hsrc hpc hget hstop =>
    exact ⟨closed_of_ne hclosed (by rw [hpc]; simp) (by simp), hret⟩
  | chanEnd startIndex chData hnp hsrc hpc hget =>
    exact ⟨closed_of_ne hclosed (by rw [hpc]; simp) (by simp), hret⟩
  | chanRecv startIndex chData closes inData hnp hsrc hpc hget =>
    exact ⟨closed_of_ne hclosed (by rw [hpc]; simp) (by simp), hret⟩
  | checkStop inData hnp hpc hstop =>
    exact ⟨closed_of_ne hclosed (by rw [hpc]; simp) (by simp), hret⟩
  | checkGo inData hnp hpc hstop =>
    exact ⟨closed_of_ne hclosed (by rw [hpc]; simp) (by simp), hret⟩
  | prodSend e hnp hpc hroom =>
    exact ⟨closed_of_ne hclosed (by rw [hpc]; simp) (by simp), hret⟩
  | prodClose => exact ⟨⟨fun _ => rfl, fun _ => rfl⟩, hret⟩
  | wRecv => exact ⟨hclosed, hret⟩
  | wClosed => exact ⟨hclosed, hret⟩
  | wCheckStop => exact ⟨hclosed, hret⟩
  | wCheckGo => exact ⟨hclosed, hret⟩
  | wSendPanic => exact ⟨hclosed, hret⟩
  | wSend => exact ⟨hclosed, hret⟩
  | wStore => exact ⟨hclosed, hret⟩
  | wExit => exact ⟨hclosed, hret⟩
  | mWait => exact ⟨hclosed, hret⟩
  | mClosePanic => exact ⟨hclosed, hret⟩
  | mClose => exact ⟨hclosed, fun _ => rfl⟩
  | rRead outputs rest hnp hpc hch =>
    refine ⟨hclosed, ?_⟩
    intro hr
    rw [hpc] at hr
    cases hr
  | rReturn hnp hpc hch hcl => exact ⟨hclosed, fun _ => hcl⟩

theorem realConcurrency_le {T R E : Type} (cfg : Config T R E) :
    realConcurrency cfg ≤ cfg.concurrency := by
  unfold realConcurrency
  split
  · split <;> omega
  · exact Nat.le_refl _

theorem exists_getElem?_of_mem {A : Type} {l : List A} {a : A} (h : a ∈ l) :
    ∃ i : Nat, l[i]? = some a := by
  obtain ⟨n, hn, he⟩ := List.getElem_of_mem h
  exact ⟨n, by rw [List.getElem?_eq_getElem hn, he]⟩

/-- In a run of `Start`, or of `StartWithChan` when the caller closes the data channel: in
a state in which no goroutine can take a step, the closing goroutine has finished. -/
theorem monitor_done_of_terminal {T R E : Type} (cfg : Config T R E) (s : State T R E)
    (hcloses : ∀ startIndex chData closes,
      cfg.source = .chan startIndex chData closes → closes = true)
    (hcl : CloseInv cfg s) (hfl : FlowInv s) (hterm : ∀ a, step cfg a s = none) :
    s.monitor = .done := by
  have hnp := hcl.np
  have hmon := hcl.mon
  cases hm : s.monitor with
  | done => rfl
  | close =>
    have := hterm .monitor
    rw [hm] at hmon
    simp [step, hnp, monitorStep, hm, hmon.2.1] at this
  | wait =>
    exfalso
    have hmstep := hterm .monitor
    have hwg : s.wg ≠ 0 := by
      intro hz
      simp [step, hnp, monitorStep, hm, hz] at hmstep
    have hpos : 0 < s.workers.countP Worker.live := by
      rw [← hcl.wg]; omega
    obtain ⟨w, hwmem, hlive⟩ := List.countP_pos_iff.1 hpos
    obtain ⟨i, hw⟩ := exists_getElem?_of_mem hwmem
    have hW : 0 < cfg.concurrency := by
      have h1 := realConcurrency_le cfg
      have h2 := hcl.len
      have h3 : 0 < s.workers.length := List.length_pos_of_mem hwmem
      omega
    have hwstep := hterm (.worker i)
    rw [hm] at hmon
    obtain ⟨pc, consumed, emitted, dropped, checks⟩ := w
    cases pc with
    | done => simp [Worker.live] at hlive
    | check inputItem =>
      cases hst : s.willStop <;> simp [step, hnp, workerFunc, hw, hst] at hwstep
    | store => simp [step, hnp, workerFunc, hw] at hwstep
    | exit => simp [step, hnp, workerFunc, hw] at hwstep
    | send out =>
      have hfull : ¬ s.chOutput.length < cfg.concurrency := by
        intro hroom
        simp [step, hnp, workerFunc, hw, hmon.1, hroom] at hwstep
      have hrstep := hterm .reader
      cases hrd : s.reader with
      | returned =>
        have := hfl.ret hrd
        rw [hmon.1] at this
        cases this
      | read =>
        cases hch : s.chOutput with
        | nil => rw [hch] at hfull; exact hfull hW
        | cons o rest => simp [step, hnp, readerStep, hrd, hch] at hrstep
    | recv =>
      cases hci : s.chInput with
      | cons e rest => simp [step, hnp, workerFunc, hw, hci] at hwstep
      | nil =>
        cases hic : s.inputClosed with
        | true => simp [step, hnp, workerFunc, hw, hci, hic] at hwstep
        | false =>
          have hpstep := hterm .producer
          cases hp : s.producer with
          | done =>
            have := hfl.closed.2 hp
            rw [hic] at this
            cases this
          | close => simp [step, hnp, producerStep, hp] at hpstep
          | send e => simp [step, hnp, producerStep, hp, hci, hW] at hpstep
          | check inData =>
            cases hst : s.willStop <;> simp [step, hnp, producerStep, hp, hst] at hpstep
          | loop =>
            cases hsrc : cfg.source with
            | slice inputs =>
              cases hg : inputs[s.next]? <;> cases hst : s.willStop <;>
                simp [step, hnp, producerStep, hp, hsrc, hg, hst] at hpstep
            | chan startIndex chData closes =>
              have hc := hcloses startIndex chData closes hsrc
              subst hc
              cases hg : chData[s.next]? <;>
                simp [step, hnp, producerStep, hp, hsrc, hg] at hpstep

/-- The parts of queue close safety that hold in every run (`Start` or `StartWithChan`,
any number of workers): in every reachable state `close(m.chOutput)` has been executed at
most once and the channel is closed exactly when it has been executed once; if the
channel is closed then all the `realConcurrency` workers have returned; no send on the
closed channel and no second close has happened; once all workers have returned, the
channel is closed or the closing goroutine can take its next step; and in a run of
`Start`, or of `StartWithChan` when the caller closes the data channel, the channel has
been closed exactly once in every state in which no goroutine can take a step. -/
theorem output_close_invariant {T R E : Type} (cfg : Config T R E) (s : State T R E)
    (hs : Reachable cfg s) :
    s.outputCloses ≤ 1 ∧
      (s.outputClosed = true ↔ s.outputCloses = 1) ∧
      (s.outputClosed = true →
        s.workers.length = realConcurrency cfg ∧ ∀ w ∈ s.workers, w.pc = .done) ∧
      s.panicked = false ∧
      ((∀ w ∈ s.workers, w.pc = .done) →
        s.outputCloses = 1 ∨ (step cfg .monitor s).isSome = true) ∧
      ((∀ startIndex chData closes,
          cfg.source = .chan startIndex chData closes → closes = true) →
        (∀ a, step cfg a s = none) → s.outputCloses = 1 ∧ s.outputClosed = true) := by
  have h := closeInv_reachable cfg s hs
  have hfl := Reachable.invariant cfg FlowInv (flowInv_init cfg)
    (fun _ _ h hst => flowInv_step h hst) s hs
  have hmon := h.mon
  have hwg := h.wg
  have hnp := h.np
  cases hm : s.monitor with
  | wait =>
    rw [hm] at hmon
    refine ⟨by omega, ?_, ?_, hnp, ?_, ?_⟩
    · rw [hmon.1, hmon.2]; simp
    · rw [hmon.1]; simp
    · intro hall
      right
      have hz : s.wg = 0 := by rw [hwg]; exact countP_zero_of_all_done _ hall
      simp [step, hnp, monitorStep, hm, hz]
    · intro hcloses hterm
      have := monitor_done_of_terminal cfg s hcloses h hfl hterm
      rw [hm] at this
      cases this
  | close =>
    rw [hm] at hmon
    refine ⟨by omega, ?_, ?_, hnp, ?_, ?_⟩
    · rw [hmon.2.1, hmon.2.2]; simp
    · rw [hmon.2.1]; simp
    · intro _
      right
      simp [step, hnp, monitorStep, hm, hmon.2.1]
    · intro hcloses hterm
      have := monitor_done_of_terminal cfg s hcloses h hfl hterm
      rw [hm] at this
      cases this
  | done =>
    rw [hm] at hmon
    refine ⟨by omega, ?_, ?_, hnp, ?_, ?_⟩
    · rw [hmon.2.1, hmon.2.2]; simp
    · intro _
      exact ⟨h.len, all_done_of_countP_zero _ (by rw [← hwg]; exact hmon.1)⟩
    · intro _
      exact Or.inl hmon.2.2
    · intro _ _
      exact ⟨hmon.2.2, hmon.2.1⟩

/-- C10 (evaluation at a failing run): `StreamMap` with two workers and a mapper that
signals `Stop` on 10, when the caller sends 10 on the data channel and leaves it open.
After worker 0 has mapped the element, sent its output, set `willStop` and returned, and
the caller has read that output, the producer is blocked in `range chData`, worker 1 is
blocked in `range m.chInput`, the wait-group counter is 1 and no goroutine can take a
step: the output channel has not been closed and never will be. -/
theorem StreamMap_output_never_closed :
    run leakConfig leakSchedule (init leakConfig) = some leakState ∧
      leakState.willStop = true ∧
      leakState.workers.map (fun w => w.pc) = [.done, .recv] ∧
      leakState.producer = .loop ∧
      leakState.inputClosed = false ∧
      leakState.wg = 1 ∧
      leakState.outputCloses = 0 ∧
      leakState.outputClosed = false ∧
      (∀ a, step leakConfig a leakState = none) := by
  refine ⟨rfl, rfl, rfl, rfl, rfl, rfl, rfl, rfl, ?_⟩
  intro a
  cases a with
  | producer => rfl
  | worker i =>
    cases i with
    | zero => rfl
    | succ n =>
      cases n with
      | zero => rfl
      | succ m => rfl
  | monitor => rfl
  | reader => rfl

/-- C6 (evaluation at a failing run): `ParallelMap` on `[10, 20, 30]` with concurrency 1 and
a mapper that signals `Stop` on the first element has an interleaving after which the
only worker has returned, the producer is at its send of element 2 with the input channel
full and not closed, and no goroutine can take a step: the producer never returns and
the input channel is never closed. -/
theorem Start_producer_stuck :
    run stuckConfig stuckSchedule (init stuckConfig) = some stuckState ∧
      (∀ w ∈ stuckState.workers, w.pc = .done) ∧
      stuckState.producer = .send { index := 2, item := 30 } ∧
      stuckState.chInput.length = stuckConfig.concurrency ∧
      stuckState.inputClosed = false ∧
      (∀ a, step stuckConfig a stuckState = none) := by
  refine ⟨rfl, by decide, rfl, rfl, rfl, ?_⟩
  intro a
  cases a with
  | producer => rfl
  | worker i =>
    cases i with
    | zero => rfl
    | succ n => rfl
  | monitor => rfl
  | reader => rfl

/-! ## The outputs of a worker -/

theorem workerInv_init {T R E : Type} (cfg : Config T R E) :
    ∀ w ∈ (init cfg).workers, WorkerInv cfg.mapper w := by
  intro w hw
  have : w = { pc := .recv, consumed := [], emitted := [], dropped := [], checks := [] } := by
    simp only [MapReduce.init] at hw
    exact List.eq_of_mem_replicate hw
  subst this
  exact ⟨rfl, rfl, rfl, Or.inl (fun c hc => by cases hc)⟩

theorem forall_mem_set {A : Type} {P : A → Prop} {l : List A} (i : Nat) (a : A)
    (hall : ∀ x ∈ l, P x) (ha : P a) : ∀ x ∈ l.set i a, P x := by
  intro x hx
  rcases List.mem_or_eq_of_mem_set hx with h | h
  · exact hall x h
  · exact h ▸ ha

theorem workerInv_unset {T R E : Type} {mapper : MapperFunc T R E} {w : Worker T R E}
    (h : WorkerInv mapper w) (hpc : w.pc ≠ .exit ∧ w.pc ≠ .done) :
    ∀ c ∈ w.checks, c.2 = false := by
  rcases h.2.2.2 with hall | ⟨pre, inputItem, _, _, hx | hx⟩
  · exact hall
  · exact absurd hx hpc.1
  · exact absurd hx hpc.2

theorem workerInv_step {T R E : Type} {cfg : Config T R E} {s s1 : State T R E}
    (h : ∀ w ∈ s.workers, WorkerInv cfg.mapper w) (hstep : Step cfg s s1) :
    ∀ w ∈ s1.workers, WorkerInv cfg.mapper w := by
  cases hstep with
  | sliceEnd => exact h
  | sliceStop => exact h
  | sliceNext => exact h
  | chanEnd => exact h
  | chanRecv => exact h
  | checkStop => exact h
  | checkGo => exact h
  | prodSend => exact h
  | prodClose => exact h
  | wRecv i w inputItem rest hnp hw hpc hch =>
    apply forall_mem_set i _ h
    have hinv := h w (getElem?_some_mem hw)
    have hun := workerInv_unset hinv (by rw [hpc]; simp)
    obtain ⟨h1, h2, h3, _⟩ := hinv
    rw [hpc] at h1 h2
    refine ⟨?_, h2, h3, Or.inl hun⟩
    show w.consumed ++ [inputItem] = w.checks.map Prod.fst ++ [inputItem]
    rw [h1]; simp [WorkerPc.heldInput]
  | wClosed i w hnp hw hpc hch hcl =>
    apply forall_mem_set i _ h
    have hinv := h w (getElem?_some_mem hw)
    have hun := workerInv_unset hinv (by rw [hpc]; simp)
    obtain ⟨h1, h2, h3, _⟩ := hinv
    rw [hpc] at h1 h2
    exact ⟨h1, h2, h3, Or.inl hun⟩
  | wCheckStop i w inputItem hnp hw hpc hstop =>
    apply forall_mem_set i _ h
    have hinv := h w (getElem?_some_mem hw)
    have hun := workerInv_unset hinv (by rw [hpc]; simp)
    obtain ⟨h1, h2, h3, _⟩ := hinv
    rw [hpc] at h1 h2
    refine ⟨?_, ?_, ?_, Or.inr ⟨w.checks, inputItem, ?_, hun, Or.inl rfl⟩⟩
    · show w.consumed = (w.checks ++ [(inputItem, s.willStop)]).map Prod.fst ++ []
      rw [h1]; simp [WorkerPc.heldInput]
    · show ((w.checks ++ [(inputItem, s.willStop)]).filter (fun c => !c.2)).map
          (fun c => mkOutput cfg.mapper c.1.index c.1.item) = w.emitted ++ []
      rw [hstop, List.filter_append, List.map_append, h2]
      simp [WorkerPc.pendingOutput]
    · show w.dropped ++ [inputItem] =
        ((w.checks ++ [(inputItem, s.willStop)]).filter (fun c => c.2)).map Prod.fst
      rw [hstop, List.filter_append, List.map_append, ← h3]
      simp
    · show w.checks ++ [(inputItem, s.willStop)] = w.checks ++ [(inputItem, true)]
      rw [hstop]
  | wCheckGo i w inputItem hnp hw hpc hstop =>
    apply forall_mem_set i _ h
    have hinv := h w (getElem?_some_mem hw)
    have hun := workerInv_unset hinv (by rw [hpc]; simp)
    obtain ⟨h1, h2, h3, _⟩ := hinv
    rw [hpc] at h1 h2
    refine ⟨?_, ?_, ?_, Or.inl ?_⟩
    · show w.consumed = (w.checks ++ [(inputItem, s.willStop)]).map Prod.fst ++ []
      rw [h1]; simp [WorkerPc.heldInput]
    · show ((w.checks ++ [(inputItem, s.willStop)]).filter (fun c => !c.2)).map
          (fun c => mkOutput cfg.mapper c.1.index c.1.item) =
        w.emitted ++ [mkOutput cfg.mapper inputItem.index inputItem.item]
      rw [hstop, List.filter_append, List.map_append, h2]
      simp [WorkerPc.pendingOutput]
    · show w.dropped =
        ((w.checks ++ [(inputItem, s.willStop)]).filter (fun c => c.2)).map Prod.fst
      rw [hstop, List.filter_append, List.map_append, ← h3]
      simp
    · show ∀ c ∈ w.checks ++ [(inputItem, s.willStop)], c.2 = false
      intro c hc
      rcases List.mem_append.1 hc with hc | hc
      · exact hun c hc
      · have : c = (inputItem, s.willStop) := by simpa using hc
        rw [this]
        exact hstop
  | wSendPanic => exact h
  | wSend i w out hnp hw hpc hcl hroom =>
    apply forall_mem_set i _ h
    have hinv := h w (getElem?_some_mem hw)
    have hun := workerInv_unset hinv (by rw [hpc]; simp)
    obtain ⟨h1, h2, h3, _⟩ := hinv
    rw [hpc] at h1 h2
    have hheld : (if Continue ≠ out.OpType then (WorkerPc.store : WorkerPc T R E)
        else WorkerPc.recv).heldInput = [] := by
      by_cases hcn : Continue ≠ out.OpType
      · rw [if_pos hcn]; rfl
      · rw [if_neg hcn]; rfl
    have hpend : (if Continue ≠ out.OpType then (WorkerPc.store : WorkerPc T R E)
        else WorkerPc.recv).pendingOutput = [] := by
      by_cases hcn : Continue ≠ out.OpType
      · rw [if_pos hcn]; rfl
      · rw [if_neg hcn]; rfl
    refine ⟨?_, ?_, h3, Or.inl hun⟩
    · show w.consumed = w.checks.map Prod.fst ++
        (if Continue ≠ out.OpType then (WorkerPc.store : WorkerPc T R E)
          else WorkerPc.recv).heldInput
      rw [hheld, h1]; rfl
    · show (w.checks.filter (fun c => !c.2)).map
          (fun c => mkOutput cfg.mapper c.1.index c.1.item) =
        (w.emitted ++ [out]) ++
          (if Continue ≠ out.OpType then (WorkerPc.store : WorkerPc T R E)
            else WorkerPc.recv).pendingOutput
      rw [hpend, h2]; simp [WorkerPc.pendingOutput]
  | wStore i w hnp hw hpc =>
    apply forall_mem_set i _ h
    have hinv := h w (getElem?_some_mem hw)
    have hun := workerInv_unset hinv (by rw [hpc]; simp)
    obtain ⟨h1, h2, h3, _⟩ := hinv
    rw [hpc] at h1 h2
    exact ⟨h1, h2, h3, Or.inl hun⟩
  | wExit i w hnp hw hpc =>
    apply forall_mem_set i _ h
    obtain ⟨h1, h2, h3, h4⟩ := h w (getElem?_some_mem hw)
    rw [hpc] at h1 h2
    refine ⟨h1, h2, h3, ?_⟩
    rcases h4 with hall | ⟨pre, inputItem, hc, hpre, _⟩
    · exact Or.inl hall
    · exact Or.inr ⟨pre, inputItem, hc, hpre, Or.inr rfl⟩
  | mWait => exact h
  | mClosePanic => exact h
  | mClose => exact h
  | rRead => exact h
  | rReturn => exact h

/-- C5 (counterexample): in the run `dropSchedule` worker 1 has returned after receiving
the envelope of element 1 and has sent no output. -/
theorem worker_drops_consumed_envelope :
    run dropConfig dropSchedule (init dropConfig) = some dropState ∧
      (dropState.workers.map (fun w => (w.pc, w.consumed, w.emitted))).get? 1 =
        some (.done, [{ index := 1, item := 20 }], []) :=
  ⟨rfl, rfl⟩

/-- C5 (amended): in every reachable state and for every worker, with `checks` the stop
checks it has made (the envelope it held at `if m.willStop.Load()` and the value loaded):
the envelopes it has received are, in order, those of its checks, followed by the one it
holds at a check still to be made; the mapper's outputs for the envelopes whose check
found the flag unset are, in order, exactly the envelopes it has sent, followed by the one
it holds at its send; the envelopes it has discarded are exactly those whose check found
the flag set; and only its last check can have found the flag set, after which it has
left its loop. So a worker sends one output for every envelope received with the flag
unset, in order, and leaves at most one envelope, the last it received, without an
output: the one received with the flag set. -/
theorem worker_outputs {T R E : Type} (cfg : Config T R E) (s : State T R E)
    (hs : Reachable cfg s) (w : Worker T R E) (hw : w ∈ s.workers) :
    w.consumed = w.checks.map Prod.fst ++ w.pc.heldInput ∧
    (w.checks.filter (fun c => !c.2)).map (fun c => mkOutput cfg.mapper c.1.index c.1.item) =
      w.emitted ++ w.pc.pendingOutput ∧
    w.dropped = (w.checks.filter (fun c => c.2)).map Prod.fst ∧
    ((∀ c ∈ w.checks, c.2 = false) ∨
      ∃ pre inputItem, w.checks = pre ++ [(inputItem, true)] ∧ (∀ c ∈ pre, c.2 = false) ∧
        (w.pc = .exit ∨ w.pc = .done)) ∧
    w.dropped.length ≤ 1 := by
  have hinv := Reachable.invariant cfg (fun s => ∀ w ∈ s.workers, WorkerInv cfg.mapper w)
    (workerInv_init cfg) (fun _ _ h hst => workerInv_step h hst) s hs w hw
  obtain ⟨h1, h2, h3, h4⟩ := hinv
  refine ⟨h1, h2, h3, h4, ?_⟩
  rw [h3]
  rcases h4 with hall | ⟨pre, inputItem, hc, hpre, _⟩
  · have : w.checks.filter (fun c => c.2) = [] := by
      apply List.filter_eq_nil_iff.2
      intro c hc
      simp [hall c hc]
    rw [this]; simp
  · have : pre.filter (fun c => c.2) = [] := by
      apply List.filter_eq_nil_iff.2
      intro c hc
      simp [hpre c hc]
    rw [hc, List.filter_append, this]
    simp

/-- C5 (witness): the two workers of `dropState`: worker 0 received element 0 with the
flag unset and sent its output; worker 1 received element 1 with the flag set and
discarded it. -/
theorem worker_outputs_witness :
    ([(({ index := 0, item := 10 } : InputItem Nat), false)].filter (fun c => !c.2)).map
        (fun c => mkOutput stopOnTen c.1.index c.1.item) =
      [({ Index := 0, Item := 10, OpType := Stop, Result := 10, Err := none } :
          OutputItem Nat Nat Unit)] ++ (WorkerPc.done : WorkerPc Nat Nat Unit).pendingOutput ∧
    [({ index := 1, item := 20 } : InputItem Nat)] =
      ([(({ index := 1, item := 20 } : InputItem Nat), true)].filter (fun c => c.2)).map
        Prod.fst :=
  ⟨(worker_outputs dropConfig dropState ⟨dropSchedule, rfl⟩
      { pc := .done, consumed := [{ index := 0, item := 10 }],
        emitted := [{ Index := 0, Item := 10, OpType := Stop, Result := 10, Err := none }],
        dropped := [], checks := [({ index := 0, item := 10 }, false)] }
      (by simp [dropState])).2.1,
    (worker_outputs dropConfig dropState ⟨dropSchedule, rfl⟩
      { pc := .done, consumed := [{ index := 1, item := 20 }], emitted := [],
        dropped := [{ index := 1, item := 20 }],
        checks := [({ index := 1, item := 20 }, true)] }
      (by simp [dropState])).2.2.1⟩

/-! ## Index fidelity -/

theorem sum_map_set {A : Type} (g : A → Nat) (l : List A) (i : Nat) (w w1 : A)
    (hw : l[i]? = some w) :
    ((l.set i w1).map g).sum + g w = (l.map g).sum + g w1 := by
  induction l generalizing i with
  | nil => simp at hw
  | cons x xs ih =>
    cases i with
    | zero =>
      simp only [List.getElem?_cons_zero, Option.some.injEq] at hw
      subst hw
      simp only [List.set_cons_zero, List.map_cons, List.sum_cons]
      omega
    | succ n =>
      simp only [List.getElem?_cons_succ] at hw
      have := ih n hw
      simp only [List.set_cons_succ, List.map_cons, List.sum_cons]
      omega

theorem count_flatMap_set {A : Type} (f : A → List Int) (l : List A) (i : Nat) (w w1 : A)
    (hw : l[i]? = some w) (v : Int) :
    ((l.set i w1).flatMap f).count v + (f w).count v =
      (l.flatMap f).count v + (f w1).count v := by
  rw [List.count_flatMap, List.count_flatMap]
  exact sum_map_set (List.count v ∘ f) l i w w1 hw

theorem inputEnvelopes_append {T : Type} (first : Int) (xs : List T) (x : T) :
    inputEnvelopes first (xs ++ [x]) =
      inputEnvelopes first xs ++ [{ index := first + xs.length, item := x }] := by
  induction xs generalizing first with
  | nil => simp [inputEnvelopes]
  | cons y ys ih =>
    have e : first + 1 + (ys.length : Int) = first + ((ys.length + 1 : Nat) : Int) := by
      push_cast; omega
    show ({ index := first, item := y } : InputItem T) :: inputEnvelopes (first + 1) (ys ++ [x]) =
      ({ index := first, item := y } : InputItem T) :: inputEnvelopes (first + 1) ys ++
        [{ index := first + ((ys.length + 1 : Nat) : Int), item := x }]
    rw [ih (first + 1), e]
    rfl

theorem inputEnvelopes_map_index {T : Type} (first : Int) (xs : List T) :
    (inputEnvelopes first xs).map (fun e => e.index) =
      (List.range xs.length).map (fun (j : Nat) => first + (j : Int)) := by
  induction xs using List.reverseRecOn with
  | nil => rfl
  | append_singleton xs x ih =>
    rw [inputEnvelopes_append, List.map_append, ih, List.length_append, List.length_singleton,
      List.range_succ, List.map_append]
    rfl

theorem inputEnvelopes_index_bounds {T : Type} (first : Int) (xs : List T)
    (e : InputItem T) (he : e ∈ inputEnvelopes first xs) :
    first ≤ e.index ∧ e.index < first + xs.length := by
  have : e.index ∈ (inputEnvelopes first xs).map (fun e => e.index) :=
    List.mem_map.2 ⟨e, he, rfl⟩
  rw [inputEnvelopes_map_index] at this
  obtain ⟨j, hj, hje⟩ := List.mem_map.1 this
  have hj2 : j < xs.length := List.mem_range.1 hj
  omega

theorem take_succ_of_getElem? {A : Type} (l : List A) (k : Nat) (x : A)
    (h : l[k]? = some x) : l.take (k + 1) = l.take k ++ [x] := by
  rw [List.take_succ, h]; rfl

theorem lt_length_of_getElem? {A : Type} (l : List A) (k : Nat) (x : A)
    (h : l[k]? = some x) : k < l.length := by
  obtain ⟨hk, _⟩ := List.getElem?_eq_some.1 h
  exact hk

theorem wrapInt64_eq (x : Int) (h1 : -2 ^ 63 ≤ x) (h2 : x < 2 ^ 63) : wrapInt64 x = x := by
  unfold wrapInt64
  omega

theorem originInv_init {T R E : Type} (cfg : Config T R E) :
    OriginInv cfg.mapper (init cfg) := by
  refine ⟨by simp [init], ?_, by simp [init]⟩
  intro w hw
  have : w = { pc := .recv, consumed := [], emitted := [], dropped := [], checks := [] } := by
    simp only [init] at hw
    exact List.eq_of_mem_replicate hw
  subst this
  trivial

theorem originInv_step {T R E : Type} {cfg : Config T R E} {s s1 : State T R E}
    (h : OriginInv cfg.mapper s) (hstep : Step cfg s s1) : OriginInv cfg.mapper s1 := by
  cases hstep with
  | sliceEnd => exact ⟨h.queued, h.held, h.out⟩
  | sliceStop => exact ⟨h.queued, h.held, h.out⟩
  | sliceNext => exact ⟨h.queued, h.held, h.out⟩
  | chanEnd => exact ⟨h.queued, h.held, h.out⟩
  | chanRecv => exact ⟨h.queued, h.held, h.out⟩
  | checkStop => exact ⟨h.queued, h.held, h.out⟩
  | checkGo => exact ⟨h.queued, h.held, h.out⟩
  | prodSend e hnp hpc hroom =>
    refine ⟨?_, ?_, ?_⟩
    · intro x hx
      rcases List.mem_append.1 hx with hx | hx
      · exact List.mem_append_left _ (h.queued x hx)
      · exact List.mem_append_right _ hx
    · intro w hw
      have := h.held w hw
      cases hpc2 : w.pc with
      | check inputItem => rw [hpc2] at this; exact List.mem_append_left _ this
      | send out =>
        rw [hpc2] at this
        obtain ⟨x, hx, he⟩ := this
        exact ⟨x, List.mem_append_left _ hx, he⟩
      | recv => trivial
      | store => trivial
      | exit => trivial
      | done => trivial
    · intro o ho
      obtain ⟨x, hx, he⟩ := h.out o ho
      exact ⟨x, List.mem_append_left _ hx, he⟩
  | prodClose => exact ⟨h.queued, h.held, h.out⟩
  | wRecv i w inputItem rest hnp hw hpc hch =>
    refine ⟨?_, forall_mem_set i _ h.held ?_, h.out⟩
    · intro x hx
      exact h.queued x (by rw [hch]; exact List.mem_cons_of_mem _ hx)
    · exact h.queued inputItem (by rw [hch]; exact List.mem_cons_self _ _)
  | wClosed i w hnp hw hpc hch hcl =>
    exact ⟨h.queued, forall_mem_set i _ h.held trivial, h.out⟩
  | wCheckStop i w inputItem hnp hw hpc hstop =>
    exact ⟨h.queued, forall_mem_set i _ h.held trivial, h.out⟩
  | wCheckGo i w inputItem hnp hw hpc hstop =>
    refine ⟨h.queued, forall_mem_set i _ h.held ?_, h.out⟩
    have := h.held w (getElem?_some_mem hw)
    rw [hpc] at this
    exact ⟨inputItem, this, rfl⟩
  | wSendPanic => exact ⟨h.queued, h.held, h.out⟩
  | wSend i w out hnp hw hpc hcl hroom =>
    refine ⟨h.queued, forall_mem_set i _ h.held ?_, ?_⟩
    · by_cases hc : Continue ≠ out.OpType
      · have e : (if Continue ≠ out.OpType then (WorkerPc.store : WorkerPc T R E)
            else WorkerPc.recv) = WorkerPc.store := if_pos hc
        simp only [e]
      · have e : (if Continue ≠ out.OpType then (WorkerPc.store : WorkerPc T R E)
            else WorkerPc.recv) = WorkerPc.recv := if_neg hc
        simp only [e]
    · intro o ho
      rcases List.mem_append.1 ho with ho | ho
      · exact h.out o ho
      · have := h.held w (getElem?_some_mem hw)
        rw [hpc] at this
        have ho2 : o = out := by simpa using ho
        rw [ho2]
        exact this
  | wStore i w hnp hw hpc =>
    exact ⟨h.queued, forall_mem_set i _ h.held trivial, h.out⟩
  | wExit i w hnp hw hpc =>
    exact ⟨h.queued, forall_mem_set i _ h.held trivial, h.out⟩
  | mWait => exact ⟨h.queued, h.held, h.out⟩
  | mClosePanic => exact ⟨h.queued, h.held, h.out⟩
  | mClose => exact ⟨h.queued, h.held, h.out⟩
  | rRead => exact ⟨h.queued, h.held, h.out⟩
  | rReturn => exact ⟨h.queued, h.held, h.out⟩

theorem inFlight_init {T R E : Type} (cfg : Config T R E) (v : Int) :
    (inFlight (init cfg)).count v ≤ ((init cfg).sent.map (fun e => e.index)).count v := by
  have : (List.replicate (realConcurrency cfg)
      ({ pc := .recv, consumed := [], emitted := [], dropped := [], checks := [] } : Worker T R E)).flatMap
        (fun w => w.pc.held) = [] := by
    induction realConcurrency cfg with
    | zero => rfl
    | succ n ih => simp [List.replicate_succ, WorkerPc.held, ih]
  simp [inFlight, init, this]

theorem held_count_set {T R E : Type} (l : List (Worker T R E)) (i : Nat)
    (w w1 : Worker T R E) (hw : l[i]? = some w) (v : Int) (a b : List Int)
    (ha : w.pc.held = a) (hb : w1.pc.held = b) :
    ((l.set i w1).flatMap (fun w => w.pc.held)).count v + a.count v =
      (l.flatMap (fun w => w.pc.held)).count v + b.count v := by
  rw [← ha, ← hb]
  exact count_flatMap_set (fun w => w.pc.held) l i w w1 hw v

theorem inFlight_step {T R E : Type} {cfg : Config T R E} {s s1 : State T R E}
    (h : ∀ v, (inFlight s).count v ≤ (s.sent.map (fun e => e.index)).count v)
    (hstep : Step cfg s s1) :
    ∀ v, (inFlight s1).count v ≤ (s1.sent.map (fun e => e.index)).count v := by
  intro v
  have hv := h v
  simp only [inFlight, List.count_append] at hv ⊢
  cases hstep with
  | sliceEnd => exact hv
  | sliceStop => exact hv
  | sliceNext => exact hv
  | chanEnd => exact hv
  | chanRecv => exact hv
  | checkStop => exact hv
  | checkGo => exact hv
  | prodSend e hnp hpc hroom =>
    simp only [List.map_append, List.count_append]
    omega
  | prodClose => exact hv
  | wRecv i w inputItem rest hnp hw hpc hch =>
    have hc := held_count_set s.workers i w
      { w with pc := .check inputItem, consumed := w.consumed ++ [inputItem] } hw v
      [] [inputItem.index] (by rw [hpc]; rfl) rfl
    rw [hch] at hv
    dsimp only
    simp only [List.count_cons, List.count_nil, List.map_cons] at hc hv ⊢
    omega
  | wClosed i w hnp hw hpc hch hcl =>
    have hc := held_count_set s.workers i w { w with pc := .exit } hw v
      [] [] (by rw [hpc]; rfl) rfl
    dsimp only
    simp only [List.count_nil] at hc
    omega
  | wCheckStop i w inputItem hnp hw hpc hstop =>
    have hc := held_count_set s.workers i w
      { w with pc := .exit, dropped := w.dropped ++ [inputItem],
               checks := w.checks ++ [(inputItem, s.willStop)] } hw v
      [inputItem.index] [] (by rw [hpc]; rfl) rfl
    dsimp only
    simp only [List.count_nil] at hc
    omega
  | wCheckGo i w inputItem hnp hw hpc hstop =>
    have hc := held_count_set s.workers i w
      { w with pc := .send (mkOutput cfg.mapper inputItem.index inputItem.item),
               checks := w.checks ++ [(inputItem, s.willStop)] } hw v
      [inputItem.index] [inputItem.index] (by rw [hpc]; rfl) rfl
    dsimp only
    simp only [List.count_nil] at hc
    omega
  | wSendPanic => exact hv
  | wSend i w out hnp hw hpc hcl hroom =>
    have hheld : (if Continue ≠ out.OpType then (WorkerPc.store : WorkerPc T R E)
        else WorkerPc.recv).held = [] := by
      by_cases hcn : Continue ≠ out.OpType
      · rw [if_pos hcn]; rfl
      · rw [if_neg hcn]; rfl
    have hc := held_count_set s.workers i w
      { w with pc := if Continue ≠ out.OpType then .store else .recv,
               emitted := w.emitted ++ [out] } hw v
      [out.Index] [] (by rw [hpc]; rfl) hheld
    dsimp only
    simp only [List.map_append, List.count_append, List.map_cons, List.map_nil,
      List.count_nil] at hc hv ⊢
    omega
  | wStore i w hnp hw hpc =>
    have hc := held_count_set s.workers i w { w with pc := .exit } hw v
      [] [] (by rw [hpc]; rfl) rfl
    dsimp only
    simp only [List.count_nil] at hc
    omega
  | wExit i w hnp hw hpc =>
    have hc := held_count_set s.workers i w { w with pc := .done } hw v
      [] [] (by rw [hpc]; rfl) rfl
    dsimp only
    simp only [List.count_nil] at hc
    omega
  | mWait => exact hv
  | mClosePanic => exact hv
  | mClose => exact hv
  | rRead => exact hv
  | rReturn => exact hv

theorem inputEnvelopes_take_succ {T : Type} (first : Int) (xs : List T) (k : Nat)
    (e : InputItem T) (hget : xs[k]? = some e.item) (hidx : e.index = first + (k : Int)) :
    inputEnvelopes first (xs.take k) ++ [e] = inputEnvelopes first (xs.take (k + 1)) := by
  have hk : k < xs.length := lt_length_of_getElem? xs k e.item hget
  rw [take_succ_of_getElem? xs k e.item hget, inputEnvelopes_append, List.length_take,
    Nat.min_eq_left (Nat.le_of_lt hk), ← hidx]

theorem sliceInv_init {T R E : Type} (cfg : Config T R E) (inputs : List T) :
    SliceInv inputs (init cfg) :=
  ⟨0, Nat.zero_le _, rfl, rfl⟩

theorem sliceInv_step {T R E : Type} {cfg : Config T R E} {s s1 : State T R E}
    (inputs : List T) (hsrc : cfg.source = .slice inputs)
    (h : SliceInv inputs s) (hstep : Step cfg s s1) : SliceInv inputs s1 := by
  obtain ⟨k, hk, hsent, hm⟩ := h
  cases hstep with
  | sliceEnd => exact ⟨k, hk, hsent, trivial⟩
  | sliceStop => exact ⟨k, hk, hsent, trivial⟩
  | sliceNext inputs1 item hnp hsrc1 hpc hget hstop =>
    rw [hpc] at hm
    have he : inputs1 = inputs := by
      rw [hsrc] at hsrc1
      cases hsrc1
      rfl
    subst he
    refine ⟨k, hk, hsent, ?_⟩
    show s.next + 1 = k + 1 ∧ inputs1[k]? = some item ∧ (s.next : Int) = (k : Int)
    rw [← hm]
    exact ⟨rfl, hget, rfl⟩
  | chanEnd startIndex chData hnp hsrc1 => rw [hsrc] at hsrc1; cases hsrc1
  | chanRecv startIndex chData closes inData hnp hsrc1 => rw [hsrc] at hsrc1; cases hsrc1
  | checkStop inData hnp hpc hstop => rw [hpc] at hm; exact absurd hm id
  | checkGo inData hnp hpc hstop => rw [hpc] at hm; exact absurd hm id
  | prodSend e hnp hpc hroom =>
    rw [hpc] at hm
    obtain ⟨h1, h2, h3⟩ := hm
    refine ⟨k + 1, lt_length_of_getElem? inputs k e.item h2, ?_, h1⟩
    show s.sent ++ [e] = _
    rw [hsent]
    exact inputEnvelopes_take_succ 0 inputs k e h2 (by rw [h3]; simp)
  | prodClose => exact ⟨k, hk, hsent, trivial⟩
  | wRecv => exact ⟨k, hk, hsent, hm⟩
  | wClosed => exact ⟨k, hk, hsent, hm⟩
  | wCheckStop => exact ⟨k, hk, hsent, hm⟩
  | wCheckGo => exact ⟨k, hk, hsent, hm⟩
  | wSendPanic => exact ⟨k, hk, hsent, hm⟩
  | wSend => exact ⟨k, hk, hsent, hm⟩
  | wStore => exact ⟨k, hk, hsent, hm⟩
  | wExit => exact ⟨k, hk, hsent, hm⟩
  | mWait => exact ⟨k, hk, hsent, hm⟩
  | mClosePanic => exact ⟨k, hk, hsent, hm⟩
  | mClose => exact ⟨k, hk, hsent, hm⟩
  | rRead => exact ⟨k, hk, hsent, hm⟩
  | rReturn => exact ⟨k, hk, hsent, hm⟩

theorem chanInv_init {T R E : Type} (cfg : Config T R E) (startIndex : Int) (chData : List T)
    (closes : Bool) (hsrc : cfg.source = .chan startIndex chData closes) :
    ChanInv startIndex chData (init cfg) := by
  refine ⟨0, Nat.zero_le _, rfl, rfl, ?_⟩
  simp [init, hsrc]

theorem chanInv_step {T R E : Type} {cfg : Config T R E} {s s1 : State T R E}
    (startIndex : Int) (chData : List T) (closes : Bool)
    (hsrc : cfg.source = .chan startIndex chData closes)
    (hlo : -2 ^ 63 ≤ startIndex) (hhi : startIndex + (chData.length : Int) < 2 ^ 63)
    (h : ChanInv startIndex chData s) (hstep : Step cfg s s1) :
    ChanInv startIndex chData s1 := by
  obtain ⟨k, hk, hsent, hm⟩ := h
  cases hstep with
  | sliceEnd inputs hnp hsrc1 => rw [hsrc] at hsrc1; cases hsrc1
  | sliceStop inputs item hnp hsrc1 => rw [hsrc] at hsrc1; cases hsrc1
  | sliceNext inputs item hnp hsrc1 => rw [hsrc] at hsrc1; cases hsrc1
  | chanEnd => exact ⟨k, hk, hsent, trivial⟩
  | chanRecv startIndex1 chData1 closes1 inData hnp hsrc1 hpc hget =>
    rw [hpc] at hm
    have he : chData1 = chData := by
      rw [hsrc] at hsrc1
      cases hsrc1
      rfl
    subst he
    refine ⟨k, hk, hsent, ?_⟩
    show s.next + 1 = k + 1 ∧ chData1[k]? = some inData ∧ s.idx = startIndex + (k : Int)
    rw [← hm.1]
    exact ⟨rfl, hget, by rw [hm.2, hm.1]⟩
  | checkStop => exact ⟨k, hk, hsent, trivial⟩
  | checkGo inData hnp hpc hstop =>
    rw [hpc] at hm
    obtain ⟨h1, h2, h3⟩ := hm
    have hlt : k < chData.length := lt_length_of_getElem? chData k inData h2
    have hw : wrapInt64 (s.idx + 1) = startIndex + (k : Int) + 1 := by
      rw [h3]
      apply wrapInt64_eq <;> omega
    refine ⟨k, hk, hsent, ?_⟩
    show s.next = k + 1 ∧ chData[k]? = some inData ∧
      wrapInt64 (s.idx + 1) = startIndex + (k : Int) + 1 ∧
      wrapInt64 (s.idx + 1) = startIndex + (k : Int) + 1
    exact ⟨h1, h2, hw, hw⟩
  | prodSend e hnp hpc hroom =>
    rw [hpc] at hm
    obtain ⟨h1, h2, h3, h4⟩ := hm
    refine ⟨k + 1, lt_length_of_getElem? chData k e.item h2, ?_, h1, ?_⟩
    · show s.sent ++ [e] = _
      rw [hsent]
      exact inputEnvelopes_take_succ (startIndex + 1) chData k e h2 (by rw [h3]; omega)
    · show s.idx = startIndex + ((k + 1 : Nat) : Int)
      rw [h4]; push_cast; omega
  | prodClose => exact ⟨k, hk, hsent, trivial⟩
  | wRecv => exact ⟨k, hk, hsent, hm⟩
  | wClosed => exact ⟨k, hk, hsent, hm⟩
  | wCheckStop => exact ⟨k, hk, hsent, hm⟩
  | wCheckGo => exact ⟨k, hk, hsent, hm⟩
  | wSendPanic => exact ⟨k, hk, hsent, hm⟩
  | wSend => exact ⟨k, hk, hsent, hm⟩
  | wStore => exact ⟨k, hk, hsent, hm⟩
  | wExit => exact ⟨k, hk, hsent, hm⟩
  | mWait => exact ⟨k, hk, hsent, hm⟩
  | mClosePanic => exact ⟨k, hk, hsent, hm⟩
  | mClose => exact ⟨k, hk, hsent, hm⟩
  | rRead => exact ⟨k, hk, hsent, hm⟩
  | rReturn => exact ⟨k, hk, hsent, hm⟩

theorem inputEnvelopes_pairwise {T : Type} (first : Int) (xs : List T) :
    ((inputEnvelopes first xs).map (fun e => e.index)).Pairwise (fun a b => a < b) := by
  rw [inputEnvelopes_map_index, List.pairwise_map]
  exact (List.pairwise_lt_range xs.length).imp (fun h => by omega)

theorem outputs_nodup_of_count {T R E : Type} (s : State T R E)
    (hcount : ∀ v, (inFlight s).count v ≤ (s.sent.map (fun e => e.index)).count v)
    (hnd : (s.sent.map (fun e => e.index)).Nodup) :
    (s.outputs.map (fun o => o.Index)).Nodup := by
  rw [List.nodup_iff_count_le_one]
  intro v
  have h1 := hcount v
  have h2 := List.nodup_iff_count_le_one.1 hnd v
  simp only [inFlight, List.count_append] at h1
  omega

/-- C9 (counterexample): with `startIndex = 2^63 - 2` the first two relayed elements get
the indices `2^63 - 1` and `-2^63`: the second is not `startIndex + 1 + 1`, the indices
are not increasing, and the second lies below `startIndex + 1`. -/
theorem StartWithChan_index_overflow :
    (run overflowConfig overflowSchedule (init overflowConfig)).map
        (fun s => s.sent.map (fun e => e.index)) =
      some [9223372036854775807, -9223372036854775808] ∧
      (-9223372036854775808 : Int) ≠ (2 ^ 63 - 2) + 1 + 1 ∧
      (-9223372036854775808 : Int) < (2 ^ 63 - 2) + 1 := by
  refine ⟨by rfl, by decide, by decide⟩

/-- C9 (amended): in every reachable state, every envelope sent on the output channel is
the mapper's output for an envelope sent on the input channel and carries its index and
item. In a run of `Start` the envelopes sent on the input channel are `(i, inputs[i])` for
`i = 0, ..., k-1` in this order, for some `k ≤ N`; no index is sent twice on either
channel and every index lies in `[0, N)`. In a run of `StartWithChan` (whether or not the
caller closes the data channel) in which
`startIndex + (number of elements delivered)` does not exceed the largest `int64`, the
`j`-th relayed element gets the index `startIndex + 1 + j`, the indices are strictly
increasing, no index is sent twice on either channel and none lies below
`startIndex + 1`. -/
theorem index_fidelity {T R E : Type} (cfg : Config T R E) (s : State T R E)
    (hs : Reachable cfg s) :
    (∀ o ∈ s.outputs, ∃ e ∈ s.sent,
      o = mkOutput cfg.mapper e.index e.item ∧ o.Index = e.index ∧ o.Item = e.item) ∧
    (∀ inputs, cfg.source = .slice inputs →
      (∃ k, k ≤ inputs.length ∧ s.sent = inputEnvelopes 0 (inputs.take k)) ∧
      (s.sent.map (fun e => e.index)).Pairwise (fun a b => a < b) ∧
      (s.outputs.map (fun o => o.Index)).Nodup ∧
      (∀ e ∈ s.sent, 0 ≤ e.index ∧ e.index < (inputs.length : Int)) ∧
      (∀ o ∈ s.outputs, 0 ≤ o.Index ∧ o.Index < (inputs.length : Int))) ∧
    (∀ startIndex chData closes, cfg.source = .chan startIndex chData closes →
      -2 ^ 63 ≤ startIndex → startIndex + (chData.length : Int) < 2 ^ 63 →
      (∃ k, k ≤ chData.length ∧ s.sent = inputEnvelopes (startIndex + 1) (chData.take k)) ∧
      (s.sent.map (fun e => e.index)).Pairwise (fun a b => a < b) ∧
      (s.outputs.map (fun o => o.Index)).Nodup ∧
      (∀ e ∈ s.sent, startIndex + 1 ≤ e.index) ∧
      (∀ o ∈ s.outputs, startIndex + 1 ≤ o.Index)) := by
  have horigin := Reachable.invariant cfg (OriginInv cfg.mapper) (originInv_init cfg)
    (fun _ _ h hst => originInv_step h hst) s hs
  have hcount := Reachable.invariant cfg
    (fun s => ∀ v, (inFlight s).count v ≤ (s.sent.map (fun e => e.index)).count v)
    (inFlight_init cfg) (fun _ _ h hst => inFlight_step h hst) s hs
  refine ⟨?_, ?_, ?_⟩
  · intro o ho
    obtain ⟨e, he, hoe⟩ := horigin.out o ho
    exact ⟨e, he, hoe, by rw [hoe]; rfl, by rw [hoe]; rfl⟩
  · intro inputs hsrc
    obtain ⟨k, hk, hsent, _⟩ := Reachable.invariant cfg (SliceInv inputs)
      (sliceInv_init cfg inputs) (fun _ _ h hst => sliceInv_step inputs hsrc h hst) s hs
    have hpw : (s.sent.map (fun e => e.index)).Pairwise (fun a b => a < b) := by
      rw [hsent]; exact inputEnvelopes_pairwise _ _
    have hbound : ∀ e ∈ s.sent, 0 ≤ e.index ∧ e.index < (inputs.length : Int) := by
      intro e he
      rw [hsent] at he
      have := inputEnvelopes_index_bounds 0 _ e he
      have hlen : (inputs.take k).length = k := by simp [hk]
      rw [hlen] at this
      omega
    refine ⟨⟨k, hk, hsent⟩, hpw, ?_, hbound, ?_⟩
    · exact outputs_nodup_of_count s hcount (hpw.imp (fun h => by omega))
    · intro o ho
      obtain ⟨e, he, hoe⟩ := horigin.out o ho
      have := hbound e he
      rw [hoe]
      exact this
  · intro startIndex chData closes hsrc hlo hhi
    obtain ⟨k, hk, hsent, _⟩ := Reachable.invariant cfg (ChanInv startIndex chData)
      (chanInv_init cfg startIndex chData closes hsrc)
      (fun _ _ h hst => chanInv_step startIndex chData closes hsrc hlo hhi h hst) s hs
    have hpw : (s.sent.map (fun e => e.index)).Pairwise (fun a b => a < b) := by
      rw [hsent]; exact inputEnvelopes_pairwise _ _
    have hbound : ∀ e ∈ s.sent, startIndex + 1 ≤ e.index := by
      intro e he
      rw [hsent] at he
      exact (inputEnvelopes_index_bounds (startIndex + 1) _ e he).1
    refine ⟨⟨k, hk, hsent⟩, hpw, ?_, hbound, ?_⟩
    · exact outputs_nodup_of_count s hcount (hpw.imp (fun h => by omega))
    · intro o ho
      obtain ⟨e, he, hoe⟩ := horigin.out o ho
      have := hbound e he
      rw [hoe]
      exact this

/-- C9 (witness): the state `stuckState` of a run of `Start` on three inputs, and the
state `streamState` of a run of `StartWithChan` with `startIndex = 50`. -/
theorem index_fidelity_witness :
    ((∃ k, k ≤ [10, 20, 30].length ∧
        stuckState.sent = inputEnvelopes 0 ([10, 20, 30].take k)) ∧
      (stuckState.outputs.map (fun o => o.Index)).Nodup) ∧
    ((∃ k, k ≤ [10, 20, 30].length ∧
        streamState.sent = inputEnvelopes (50 + 1) ([10, 20, 30].take k)) ∧
      ∀ e ∈ streamState.sent, (50 : Int) + 1 ≤ e.index) :=
  ⟨⟨((index_fidelity stuckConfig stuckState ⟨stuckSchedule, rfl⟩).2.1 [10, 20, 30] rfl).1,
    ((index_fidelity stuckConfig stuckState ⟨stuckSchedule, rfl⟩).2.1 [10, 20, 30] rfl).2.2.1⟩,
   ⟨((index_fidelity streamConfig streamState ⟨overflowSchedule, rfl⟩).2.2 50 [10, 20, 30]
      true rfl (by decide) (by decide)).1,
    ((index_fidelity streamConfig streamState ⟨overflowSchedule, rfl⟩).2.2 50 [10, 20, 30]
      true rfl (by decide) (by decide)).2.2.2.1⟩⟩

/-! ## Termination: every run is finite -/

theorem weight_sum_set {T R E : Type} (l : List (Worker T R E)) (i : Nat)
    (w w1 : Worker T R E) (hw : l[i]? = some w) (a b : Nat)
    (ha : w.pc.weight = a) (hb : w1.pc.weight = b) :
    ((l.set i w1).map (fun w => w.pc.weight)).sum + a =
      (l.map (fun w => w.pc.weight)).sum + b := by
  rw [← ha, ← hb]
  exact sum_map_set (fun w => w.pc.weight) l i w w1 hw

theorem measure_step {T R E : Type} {cfg : Config T R E} {s s1 : State T R E}
    (hstep : Step cfg s s1) : measure cfg s1 < measure cfg s := by
  cases hstep with
  | sliceEnd inputs hnp hsrc hpc hget =>
    simp only [measure, hpc, ProducerPc.weight]
    omega
  | sliceStop inputs item hnp hsrc hpc hget hstop =>
    simp only [measure, hpc, ProducerPc.weight]
    omega
  | sliceNext inputs item hnp hsrc hpc hget hstop =>
    have hlt := lt_length_of_getElem? inputs s.next item hget
    simp only [measure, hpc, ProducerPc.weight, hsrc, Source.length]
    omega
  | chanEnd startIndex chData hnp hsrc hpc hget =>
    simp only [measure, hpc, ProducerPc.weight]
    omega
  | chanRecv startIndex chData closes inData hnp hsrc hpc hget =>
    have hlt := lt_length_of_getElem? chData s.next inData hget
    simp only [measure, hpc, ProducerPc.weight, hsrc, Source.length]
    omega
  | checkStop inData hnp hpc hstop =>
    simp only [measure, hpc, ProducerPc.weight]
    omega
  | checkGo inData hnp hpc hstop =>
    simp only [measure, hpc, ProducerPc.weight]
    omega
  | prodSend e hnp hpc hroom =>
    simp only [measure, hpc, ProducerPc.weight, List.length_append, List.length_singleton]
    omega
  | prodClose hnp hpc =>
    simp only [measure, hpc, ProducerPc.weight]
    omega
  | wRecv i w inputItem rest hnp hw hpc hch =>
    have hs := weight_sum_set s.workers i w
      { w with pc := .check inputItem, consumed := w.consumed ++ [inputItem] } hw 2 5
      (by rw [hpc]; rfl) rfl
    simp only [measure, hch, List.length_cons]
    omega
  | wClosed i w hnp hw hpc hch hcl =>
    have hs := weight_sum_set s.workers i w { w with pc := .exit } hw 2 1
      (by rw [hpc]; rfl) rfl
    simp only [measure]
    omega
  | wCheckStop i w inputItem hnp hw hpc hstop =>
    have hs := weight_sum_set s.workers i w
      { w with pc := .exit, dropped := w.dropped ++ [inputItem],
               checks := w.checks ++ [(inputItem, s.willStop)] } hw 5 1
      (by rw [hpc]; rfl) rfl
    simp only [measure]
    omega
  | wCheckGo i w inputItem hnp hw hpc hstop =>
    have hs := weight_sum_set s.workers i w
      { w with pc := .send (mkOutput cfg.mapper inputItem.index inputItem.item),
               checks := w.checks ++ [(inputItem, s.willStop)] } hw 5 4
      (by rw [hpc]; rfl) rfl
    simp only [measure]
    omega
  | wSendPanic i w out hnp hw hpc hcl =>
    simp only [measure, hnp]
    simp
  | wSend i w out hnp hw hpc hcl hroom =>
    have hwt : (if Continue ≠ out.OpType then (WorkerPc.store : WorkerPc T R E)
        else WorkerPc.recv).weight = 2 := by
      by_cases hcn : Continue ≠ out.OpType
      · rw [if_pos hcn]; rfl
      · rw [if_neg hcn]; rfl
    have hs := weight_sum_set s.workers i w
      { w with pc := if Continue ≠ out.OpType then .store else .recv,
               emitted := w.emitted ++ [out] } hw 4 2
      (by rw [hpc]; rfl) hwt
    simp only [measure, List.length_append, List.length_singleton]
    omega
  | wStore i w hnp hw hpc =>
    have hs := weight_sum_set s.workers i w { w with pc := .exit } hw 2 1
      (by rw [hpc]; rfl) rfl
    simp only [measure]
    omega
  | wExit i w hnp hw hpc =>
    have hs := weight_sum_set s.workers i w { w with pc := .done } hw 1 0
      (by rw [hpc]; rfl) rfl
    simp only [measure]
    omega
  | mWait hnp hpc hwg =>
    simp only [measure, hpc, MonitorPc.weight]
    omega
  | mClosePanic hnp hpc hcl =>
    simp only [measure, hnp]
    simp
  | mClose hnp hpc hcl =>
    simp only [measure, hpc, MonitorPc.weight]
    omega
  | rRead outputs rest hnp hpc hch =>
    simp only [measure, hch, List.length_cons]
    omega
  | rReturn hnp hpc hch hcl =>
    simp only [measure, hpc, ReaderPc.weight]
    omega

theorem run_length_le {T R E : Type} (cfg : Config T R E) :
    ∀ (sched : List Actor) (s0 s : State T R E), run cfg sched s0 = some s →
      sched.length + measure cfg s ≤ measure cfg s0 := by
  intro sched
  induction sched with
  | nil =>
    intro s0 s hrun
    simp only [run, Option.some.injEq] at hrun
    subst hrun
    simp
  | cons a rest ih =>
    intro s0 s hrun
    simp only [run] at hrun
    split at hrun
    · simp at hrun
    · rename_i s1 hs1
      have h1 := ih s1 s hrun
      have h2 := measure_step (step_Step cfg a s0 s1 hs1)
      simp only [List.length_cons]
      omega

/-! ## One worker: `ParallelMap` against `Map` -/

theorem singleton_getElem? {A : Type} {a b : A} {i : Nat} (h : [a][i]? = some b) :
    i = 0 ∧ b = a := by
  cases i with
  | zero => simp at h; exact ⟨rfl, h.symm⟩
  | succ n => simp at h

theorem seq_worker_case {T R E : Type} {mapper : MapperFunc T R E} {s : State T R E}
    {i : Nat} {w : Worker T R E}
    (hwk : (s.workers = [] ∧ s.outputs = []) ∨ ∃ w, s.workers = [w] ∧ WorkerSeq mapper s w)
    (hw : s.workers[i]? = some w) :
    s.workers = [w] ∧ i = 0 ∧ WorkerSeq mapper s w := by
  rcases hwk with ⟨hnil, _⟩ | ⟨w0, hw0, hseq⟩
  · rw [hnil] at hw; simp at hw
  · rw [hw0] at hw
    obtain ⟨hi, he⟩ := singleton_getElem? hw
    subst he
    exact ⟨hw0, hi, hseq⟩

theorem seq_set {T R E : Type} {s : State T R E} {i : Nat} {w w1 : Worker T R E}
    (hws : s.workers = [w]) (hi : i = 0) : s.workers.set i w1 = [w1] := by
  rw [hws, hi]; rfl

theorem seqInv_init {T R E : Type} (cfg : Config T R E) (inputs : List T)
    (hsrc : cfg.source = .slice inputs) (hc : cfg.concurrency = 1) :
    SeqInv cfg.mapper inputs (init cfg) := by
  refine ⟨rfl, rfl, ?_, ?_, ?_, ?_⟩
  · intro h; cases h
  · rintro (h | h) <;> cases h
  · constructor <;> intro h <;> cases h
  · by_cases hn : inputs.length < 1
    · left
      have hl : inputs.length = 0 := by omega
      simp [init, realConcurrency, hsrc, hc, hl]
    · right
      refine ⟨{ pc := .recv, consumed := [], emitted := [], dropped := [], checks := [] }, ?_, ?_⟩
      · simp [init, realConcurrency, hsrc, hc, hn]
      · refine ⟨rfl, rfl, rfl, rfl, ?_⟩
        intro e he
        cases he

theorem slice_source_eq {T R E : Type} {cfg : Config T R E} {inputs inputs1 : List T}
    (h : cfg.source = .slice inputs) (h1 : cfg.source = .slice inputs1) : inputs1 = inputs := by
  rw [h] at h1
  cases h1
  rfl

theorem workerSeq_prodSend {T R E : Type} {mapper : MapperFunc T R E} {s : State T R E}
    {w : Worker T R E} (e : InputItem T) (hopen : s.inputClosed = false)
    (h : WorkerSeq mapper s w) :
    WorkerSeq mapper
      { s with chInput := s.chInput ++ [e], sent := s.sent ++ [e], producer := .loop } w := by
  obtain ⟨hsent, houts, hm⟩ := h
  obtain ⟨pc, consumed, emitted, dropped, checks⟩ := w
  have hs : s.sent ++ [e] = consumed ++ (s.chInput ++ [e]) := by
    rw [← List.append_assoc]
    exact congrArg (fun l => l ++ [e]) hsent
  cases pc with
  | recv => exact ⟨hs, houts, hm⟩
  | check inputItem => exact ⟨hs, houts, hm⟩
  | send out => exact ⟨hs, houts, hm⟩
  | store => exact ⟨hs, houts, hm⟩
  | exit =>
    rcases hm with hl | hr
    · exact ⟨hs, houts, Or.inl hl⟩
    · rw [hr.2.2.1] at hopen; cases hopen
  | done =>
    rcases hm with hl | hr
    · exact ⟨hs, houts, Or.inl hl⟩
    · rw [hr.2.2.1] at hopen; cases hopen

theorem workerSeq_prodClose {T R E : Type} {mapper : MapperFunc T R E} {s : State T R E}
    {w : Worker T R E} (h : WorkerSeq mapper s w) :
    WorkerSeq mapper { s with inputClosed := true, producer := .done } w := by
  obtain ⟨hsent, houts, hm⟩ := h
  obtain ⟨pc, consumed, emitted, dropped, checks⟩ := w
  cases pc with
  | recv => exact ⟨hsent, houts, hm⟩
  | check inputItem => exact ⟨hsent, houts, hm⟩
  | send out => exact ⟨hsent, houts, hm⟩
  | store => exact ⟨hsent, houts, hm⟩
  | exit =>
    rcases hm with hl | hr
    · exact ⟨hsent, houts, Or.inl hl⟩
    · exact ⟨hsent, houts, Or.inr ⟨hr.1, hr.2.1, rfl, hr.2.2.2⟩⟩
  | done =>
    rcases hm with hl | hr
    · exact ⟨hsent, houts, Or.inl hl⟩
    · exact ⟨hsent, houts, Or.inr ⟨hr.1, hr.2.1, rfl, hr.2.2.2⟩⟩

theorem seqInv_step {T R E : Type} {cfg : Config T R E} {s s1 : State T R E}
    (inputs : List T) (hsrc : cfg.source = .slice inputs) (hsl : SliceInv inputs s)
    (h : SeqInv cfg.mapper inputs s) (hstep : Step cfg s s1) :
    SeqInv cfg.mapper inputs s1 := by
  obtain ⟨hout, hres, hret, hprod, hclosed, hwk⟩ := h
  cases hstep with
  | sliceEnd inputs1 hnp hsrc1 hpc hget =>
    have he := slice_source_eq hsrc hsrc1
    subst he
    refine ⟨hout, hres, hret, ?_, closed_of_ne hclosed (by rw [hpc]; simp) (by simp), hwk⟩
    intro _
    right
    obtain ⟨k, hk, hsent, hm⟩ := hsl
    rw [hpc] at hm
    have hge : inputs1.length ≤ s.next := List.getElem?_eq_none_iff.1 hget
    have hkN : k = inputs1.length := by
      have : s.next = k := hm
      omega
    show s.sent = _
    rw [hsent, hkN, List.take_length]
  | sliceStop inputs1 item hnp hsrc1 hpc hget hstop =>
    exact ⟨hout, hres, hret, fun _ => Or.inl hstop,
      closed_of_ne hclosed (by rw [hpc]; simp) (by simp), hwk⟩
  | sliceNext inputs1 item hnp hsrc1 hpc hget hstop =>
    refine ⟨hout, hres, hret, ?_, closed_of_ne hclosed (by rw [hpc]; simp) (by simp), hwk⟩
    rintro (h | h) <;> cases h
  | chanEnd startIndex chData hnp hsrc1 => rw [hsrc] at hsrc1; cases hsrc1
  | chanRecv startIndex chData closes inData hnp hsrc1 => rw [hsrc] at hsrc1; cases hsrc1
  | checkStop inData hnp hpc hstop =>
    exact ⟨hout, hres, hret, fun _ => Or.inl hstop,
      closed_of_ne hclosed (by rw [hpc]; simp) (by simp), hwk⟩
  | checkGo inData hnp hpc hstop =>
    refine ⟨hout, hres, hret, ?_, closed_of_ne hclosed (by rw [hpc]; simp) (by simp), hwk⟩
    rintro (h | h) <;> cases h
  | prodSend e hnp hpc hroom =>
    have hopen : s.inputClosed = false := by
      cases hic : s.inputClosed with
      | false => rfl
      | true =>
        have := hclosed.1 hic
        rw [hpc] at this
        cases this
    refine ⟨hout, hres, hret, ?_, closed_of_ne hclosed (by rw [hpc]; simp) (by simp), ?_⟩
    · rintro (h | h) <;> cases h
    · rcases hwk with hnil | ⟨w, hws, hseq⟩
      · exact Or.inl hnil
      · exact Or.inr ⟨w, hws, workerSeq_prodSend e hopen hseq⟩
  | prodClose hnp hpc =>
    refine ⟨hout, hres, hret, fun _ => hprod (Or.inl hpc), ⟨fun _ => rfl, fun _ => rfl⟩, ?_⟩
    rcases hwk with hnil | ⟨w, hws, hseq⟩
    · exact Or.inl hnil
    · exact Or.inr ⟨w, hws, workerSeq_prodClose hseq⟩
  | wRecv i w inputItem rest hnp hw hpc hch =>
    obtain ⟨hws, hi, hsent, houts, hm⟩ := seq_worker_case hwk hw
    rw [hpc] at hm
    refine ⟨hout, hres, hret, hprod, hclosed, Or.inr ⟨_, seq_set hws hi, ?_⟩⟩
    refine ⟨?_, houts, hm.1, w.consumed, rfl, hm.2.1, hm.2.2⟩
    show s.sent = (w.consumed ++ [inputItem]) ++ rest
    rw [hsent, hch]; simp
  | wClosed i w hnp hw hpc hch hcl =>
    obtain ⟨hws, hi, hsent, houts, hm⟩ := seq_worker_case hwk hw
    rw [hpc] at hm
    exact ⟨hout, hres, hret, hprod, hclosed, Or.inr ⟨_, seq_set hws hi,
      hsent, houts, Or.inr ⟨hm.1, hch, hcl, hm.2.1, hm.2.2⟩⟩⟩
  | wCheckStop i w inputItem hnp hw hpc hstop =>
    obtain ⟨hws, hi, hsent, houts, hm⟩ := seq_worker_case hwk hw
    rw [hpc] at hm
    rw [hm.1] at hstop
    cases hstop
  | wCheckGo i w inputItem hnp hw hpc hstop =>
    obtain ⟨hws, hi, hsent, houts, hm⟩ := seq_worker_case hwk hw
    rw [hpc] at hm
    obtain ⟨h1, pre, h2, h3, h4⟩ := hm
    exact ⟨hout, hres, hret, hprod, hclosed, Or.inr ⟨_, seq_set hws hi,
      hsent, houts, h1, pre, inputItem, h2, rfl, h3, h4⟩⟩
  | wSendPanic => exact ⟨hout, hres, hret, hprod, hclosed, hwk⟩
  | wSend i w out hnp hw hpc hcl hroom =>
    obtain ⟨hws, hi, hsent, houts, hm⟩ := seq_worker_case hwk hw
    rw [hpc] at hm
    obtain ⟨h1, pre, inputItem, h2, h3, h4, h5⟩ := hm
    have hem : w.emitted ++ [out] = (pre ++ [inputItem]).map (outputOf cfg.mapper) := by
      rw [h4, h3]; simp
    refine ⟨?_, hres, ?_, hprod, hclosed, Or.inr ⟨_, seq_set hws hi, hsent, ?_, ?_⟩⟩
    · show s.received ++ (s.chOutput ++ [out]) = s.outputs ++ [out]
      rw [← List.append_assoc, hout]
    · intro hr
      have := (hret hr).2
      rw [this] at hcl
      cases hcl
    · show s.outputs ++ [out] = w.emitted ++ [out]
      rw [houts]
    · by_cases hcn : Continue ≠ out.OpType
      · have e : (if Continue ≠ out.OpType then (WorkerPc.store : WorkerPc T R E)
            else WorkerPc.recv) = WorkerPc.store := if_pos hcn
        simp only [e]
        refine ⟨h1, pre, inputItem, h2, hem, h5, ?_⟩
        intro hc
        apply hcn
        rw [h3]
        exact hc.symm
      · have e : (if Continue ≠ out.OpType then (WorkerPc.store : WorkerPc T R E)
            else WorkerPc.recv) = WorkerPc.recv := if_neg hcn
        simp only [e]
        refine ⟨h1, ?_, ?_⟩
        · show w.emitted ++ [out] = w.consumed.map (outputOf cfg.mapper)
          rw [hem, h2]
        · show AllContinue cfg.mapper w.consumed
          rw [h2]
          intro x hx
          rcases List.mem_append.1 hx with hx | hx
          · exact h5 x hx
          · have hx2 : x = inputItem := by simpa using hx
            rw [hx2]
            have : Continue = out.OpType := by
              by_contra hne
              exact hcn hne
            rw [h3] at this
            exact this.symm
  | wStore i w hnp hw hpc =>
    obtain ⟨hws, hi, hsent, houts, hm⟩ := seq_worker_case hwk hw
    rw [hpc] at hm
    exact ⟨hout, hres, hret, fun _ => Or.inl rfl, hclosed, Or.inr ⟨_, seq_set hws hi,
      hsent, houts, Or.inl ⟨rfl, hm.2⟩⟩⟩
  | wExit i w hnp hw hpc =>
    obtain ⟨hws, hi, hsent, houts, hm⟩ := seq_worker_case hwk hw
    rw [hpc] at hm
    exact ⟨hout, hres, hret, hprod, hclosed, Or.inr ⟨_, seq_set hws hi, hsent, houts, hm⟩⟩
  | mWait => exact ⟨hout, hres, hret, hprod, hclosed, hwk⟩
  | mClosePanic => exact ⟨hout, hres, hret, hprod, hclosed, hwk⟩
  | mClose hnp hpc hcl =>
    exact ⟨hout, hres, fun hr => ⟨(hret hr).1, rfl⟩, hprod, hclosed, hwk⟩
  | rRead outputs rest hnp hpc hch =>
    refine ⟨?_, ?_, ?_, hprod, hclosed, hwk⟩
    · show (s.received ++ [outputs]) ++ rest = s.outputs
      rw [← hout, hch]; simp
    · show ResultsMap.store s.results outputs.Index (some outputs) =
        ReadMapperResult (s.received ++ [outputs])
      rw [ReadMapperResult_append_singleton, hres]
    · intro hr
      rw [hpc] at hr
      cases hr
  | rReturn hnp hpc hch hcl =>
    exact ⟨hout, hres, fun _ => ⟨hch, hcl⟩, hprod, hclosed, hwk⟩

theorem inputEnvelopes_split {T : Type} (first : Int) (xs : List T)
    (A B : List (InputItem T)) (h : inputEnvelopes first xs = A ++ B) :
    ∃ P rest, xs = P ++ rest ∧ A = inputEnvelopes first P := by
  induction xs generalizing first A with
  | nil =>
    have hA : A = [] := by
      have : A ++ B = [] := h.symm
      exact (List.append_eq_nil.1 this).1
    exact ⟨[], [], rfl, hA⟩
  | cons x rest ih =>
    cases A with
    | nil => exact ⟨[], x :: rest, rfl, rfl⟩
    | cons a A1 =>
      simp only [inputEnvelopes, List.cons_append, List.cons.injEq] at h
      obtain ⟨P, rest1, h1, h2⟩ := ih (first + 1) A1 h.2
      refine ⟨x :: P, rest1, by rw [h1]; rfl, ?_⟩
      show a :: A1 = { index := first, item := x } :: inputEnvelopes (first + 1) P
      rw [← h.1, h2]

theorem inputEnvelopes_map_item {T : Type} (first : Int) (xs : List T) :
    (inputEnvelopes first xs).map (fun e => e.item) = xs := by
  induction xs generalizing first with
  | nil => rfl
  | cons x rest ih => simp [inputEnvelopes, ih]

theorem inputEnvelopes_map_outputOf {T R E : Type} (mapper : MapperFunc T R E) (n : Nat)
    (xs : List T) :
    (inputEnvelopes (n : Int) xs).map (outputOf mapper) = envelopesFrom mapper n xs := by
  induction xs generalizing n with
  | nil => rfl
  | cons x rest ih =>
    have e : (n : Int) + 1 = ((n + 1 : Nat) : Int) := by push_cast; rfl
    simp only [inputEnvelopes, envelopesFrom, List.map_cons, outputOf, e, List.cons.injEq,
      true_and]
    exact ih (n + 1)

theorem takeUntilStop_append {T R E : Type} (mapper : MapperFunc T R E) (A : List T) (y : T)
    (rest : List T) (hA : ∀ x ∈ A, (mapper x).2.1 = Continue)
    (hy : (mapper y).2.1 ≠ Continue) :
    takeUntilStop mapper (A ++ y :: rest) = A ++ [y] := by
  induction A with
  | nil =>
    have : Continue ≠ (mapper y).2.1 := fun e => hy e.symm
    simp [takeUntilStop, this]
  | cons a A1 ih =>
    have ha : (mapper a).2.1 = Continue := hA a (by simp)
    have := ih (fun x hx => hA x (by simp [hx]))
    simp [takeUntilStop, ha, this]

theorem takeUntilStop_all_mem {T R E : Type} (mapper : MapperFunc T R E) (xs : List T)
    (h : ∀ x ∈ xs, (mapper x).2.1 = Continue) : takeUntilStop mapper xs = xs := by
  induction xs with
  | nil => rfl
  | cons a A1 ih =>
    have ha : (mapper a).2.1 = Continue := h a (by simp)
    have := ih (fun x hx => h x (by simp [hx]))
    simp [takeUntilStop, ha, this]

theorem Map_of_processed {T R E : Type} (mapper : MapperFunc T R E) (inputs P : List T)
    (htu : takeUntilStop mapper inputs = P) :
    Map inputs mapper = ReadMapperResult ((inputEnvelopes 0 P).map (outputOf mapper)) := by
  rw [Map_eq, htu]
  exact congrArg ReadMapperResult (inputEnvelopes_map_outputOf mapper 0 P).symm

theorem final_results {T R E : Type} (mapper : MapperFunc T R E) (inputs : List T)
    (s : State T R E) (w : Worker T R E) (hsl : SliceInv inputs s)
    (hprod : (s.producer = .close ∨ s.producer = .done) →
      s.willStop = true ∨ s.sent = inputEnvelopes 0 inputs)
    (hclosed : s.inputClosed = true ↔ s.producer = .done)
    (hsent : s.sent = w.consumed ++ s.chInput) (hfin : Final mapper s w) :
    ReadMapperResult w.emitted = Map inputs mapper := by
  obtain ⟨k, hk, hshape, _⟩ := hsl
  rcases hfin with ⟨_, pre, last, hcons, hemit, hall, hlast⟩ | ⟨hgo, hempty, hic, hemit, hall⟩
  · have hsplit : inputEnvelopes 0 (inputs.take k) = w.consumed ++ s.chInput := by
      rw [← hshape, hsent]
    obtain ⟨P, rest, hP, hA⟩ := inputEnvelopes_split 0 _ _ _ hsplit
    have hitems : P = pre.map (fun e => e.item) ++ [last.item] := by
      have := congrArg (List.map (fun e => e.item)) hA
      rw [inputEnvelopes_map_item, hcons] at this
      rw [← this]; simp
    have hinputs : inputs = pre.map (fun e => e.item) ++ last.item :: (rest ++ inputs.drop k) := by
      conv_lhs => rw [← List.take_append_drop k inputs, hP, hitems]
      simp
    have htu : takeUntilStop mapper inputs = P := by
      rw [hitems]
      conv_lhs => rw [hinputs]
      apply takeUntilStop_append
      · intro x hx
        obtain ⟨e, he, rfl⟩ := List.mem_map.1 hx
        exact hall e he
      · exact hlast
    rw [Map_of_processed mapper inputs P htu, hemit, ← hcons, hA]
  · have hdone : s.producer = .done := hclosed.1 hic
    have hfull : s.sent = inputEnvelopes 0 inputs := by
      rcases hprod (Or.inr hdone) with h | h
      · rw [hgo] at h; cases h
      · exact h
    have hcons : w.consumed = inputEnvelopes 0 inputs := by
      rw [← hfull, hsent, hempty]; simp
    have htu : takeUntilStop mapper inputs = inputs := by
      apply takeUntilStop_all_mem
      intro x hx
      have hx2 : x ∈ (inputEnvelopes 0 inputs).map (fun e => e.item) := by
        rw [inputEnvelopes_map_item]; exact hx
      obtain ⟨e, he, rfl⟩ := List.mem_map.1 hx2
      exact hall e (by rw [hcons]; exact he)
    rw [Map_of_processed mapper inputs inputs htu, hemit, hcons]

theorem seq_progress {T R E : Type} (cfg : Config T R E) (inputs : List T)
    (hsrc : cfg.source = .slice inputs) (hc : cfg.concurrency = 1) (s : State T R E)
    (hseq : SeqInv cfg.mapper inputs s) (hcl : CloseInv cfg s) (hr : s.reader ≠ .returned) :
    ∃ a, (step cfg a s).isSome = true := by
  have hnp := hcl.np
  have hread : s.reader = .read := by
    cases hrd : s.reader with
    | read => rfl
    | returned => exact absurd hrd hr
  cases hch : s.chOutput with
  | cons o rest => exact ⟨.reader, by simp [step, hnp, readerStep, hread, hch]⟩
  | nil =>
    cases hoc : s.outputClosed with
    | true => exact ⟨.reader, by simp [step, hnp, readerStep, hread, hch, hoc]⟩
    | false =>
      have hmon := hcl.mon
      cases hm : s.monitor with
      | done =>
        rw [hm] at hmon
        rw [hoc] at hmon
        exact absurd hmon.2.1 (by simp)
      | close => exact ⟨.monitor, by simp [step, hnp, monitorStep, hm, hoc]⟩
      | wait =>
        by_cases hwg : s.wg = 0
        · exact ⟨.monitor, by simp [step, hnp, monitorStep, hm, hwg]⟩
        · have hpos : 0 < s.workers.countP Worker.live := by
            rw [← hcl.wg]; omega
          rcases hseq.wk with ⟨hnil, _⟩ | ⟨w, hws, hsq⟩
          · rw [hnil] at hpos; simp at hpos
          · rw [hws] at hpos
            have hlive : w.live = true := by
              by_contra hl
              simp [List.countP_cons, hl] at hpos
            obtain ⟨pc, consumed, emitted, dropped, checks⟩ := w
            cases pc with
            | done => simp [Worker.live] at hlive
            | check inputItem =>
              refine ⟨.worker 0, ?_⟩
              cases hst : s.willStop <;> simp [step, hnp, workerFunc, hws, hst]
            | send out =>
              exact ⟨.worker 0, by simp [step, hnp, workerFunc, hws, hoc, hch, hc]⟩
            | store => exact ⟨.worker 0, by simp [step, hnp, workerFunc, hws]⟩
            | exit => exact ⟨.worker 0, by simp [step, hnp, workerFunc, hws]⟩
            | recv =>
              cases hci : s.chInput with
              | cons e rest => exact ⟨.worker 0, by simp [step, hnp, workerFunc, hws, hci]⟩
              | nil =>
                cases hic : s.inputClosed with
                | true => exact ⟨.worker 0, by simp [step, hnp, workerFunc, hws, hci, hic]⟩
                | false =>
                  refine ⟨.producer, ?_⟩
                  cases hp : s.producer with
                  | done =>
                    have := hseq.closed.2 hp
                    rw [hic] at this
                    cases this
                  | loop =>
                    cases hg : inputs[s.next]? <;> cases hst : s.willStop <;>
                      simp [step, hnp, producerStep, hp, hsrc, hg, hst]
                  | check inData =>
                    cases hst : s.willStop <;> simp [step, hnp, producerStep, hp, hst]
                  | send e => simp [step, hnp, producerStep, hp, hci, hc]
                  | close => simp [step, hnp, producerStep, hp]

theorem measure_init_le {T R E : Type} (inputs : List T) (mapper : MapperFunc T R E) :
    measure (Start inputs 1 mapper) (init (Start inputs 1 mapper)) ≤ 7 * inputs.length + 8 := by
  by_cases hn : inputs.length < 1
  · have hl : inputs.length = 0 := by omega
    simp [measure, init, Start, realConcurrency, hl, ProducerPc.weight, MonitorPc.weight,
      ReaderPc.weight, Source.length]
  · simp [measure, init, Start, realConcurrency, hn, ProducerPc.weight, MonitorPc.weight,
      ReaderPc.weight, Source.length, WorkerPc.weight]

/-- C7: in every state that an interleaving of the goroutines of `ParallelMap` with
concurrency 1 reaches, if `ReadMapperResult` has returned then the collection it returns
is the one `Map` returns on the same inputs (hence the same `ConvertResult` output); if
it has not returned yet then some goroutine can take a step; and the interleaving has at
most `7 N + 8` steps. So every run that is continued until no goroutine can take a step
is finite and ends with `ParallelMap` returning the result collection of `Map`. -/
theorem ParallelMap_concurrency_one {T R E : Type} (inputs : List T)
    (mapper : MapperFunc T R E) (sched : List Actor) (s : State T R E)
    (hrun : run (Start inputs 1 mapper) sched (init (Start inputs 1 mapper)) = some s) :
    (s.reader = .returned →
      s.results = Map inputs mapper ∧
        ConvertResult s.results = ConvertResult (Map inputs mapper)) ∧
    (s.reader ≠ .returned → ∃ a, (step (Start inputs 1 mapper) a s).isSome = true) ∧
    sched.length ≤ 7 * inputs.length + 8 := by
  have hreach : Reachable (Start inputs 1 mapper) s := ⟨sched, hrun⟩
  have hcl := closeInv_reachable _ s hreach
  have hboth := Reachable.invariant (Start inputs 1 mapper)
    (fun s => SliceInv inputs s ∧ SeqInv mapper inputs s)
    ⟨sliceInv_init _ inputs, seqInv_init (Start inputs 1 mapper) inputs rfl rfl⟩
    (fun _ _ h hst => ⟨sliceInv_step inputs rfl h.1 hst, seqInv_step inputs rfl h.1 h.2 hst⟩)
    s hreach
  obtain ⟨hsl, hseq⟩ := hboth
  refine ⟨?_, ?_, ?_⟩
  · intro hret
    have hres : s.results = Map inputs mapper := by
      obtain ⟨hempty, hoc⟩ := hseq.ret hret
      have hrecv : s.received = s.outputs := by
        have := hseq.out
        rw [hempty] at this
        simpa using this
      have hmon := hcl.mon
      have hwg0 : s.wg = 0 := by
        cases hm : s.monitor with
        | wait => rw [hm] at hmon; rw [hoc] at hmon; exact absurd hmon.1 (by simp)
        | close => rw [hm] at hmon; exact hmon.1
        | done => rw [hm] at hmon; exact hmon.1
      have hdone := all_done_of_countP_zero s.workers (by rw [← hcl.wg]; exact hwg0)
      rw [hseq.res, hrecv]
      rcases hseq.wk with ⟨hnil, houts⟩ | ⟨w, hws, hsent, houts, hm⟩
      · have hlen := hcl.len
        rw [hnil] at hlen
        have hN : inputs = [] := by
          simp only [realConcurrency, Start, List.length_nil] at hlen
          by_cases hn : inputs.length < 1
          · exact List.length_eq_zero.1 (by omega)
          · rw [if_neg hn] at hlen
            cases hlen
        rw [houts, hN]
        rfl
      · have hpc : w.pc = .done := hdone w (by rw [hws]; simp)
        rw [hpc] at hm
        rw [houts]
        exact final_results mapper inputs s w hsl hseq.prod hseq.closed hsent hm
    exact ⟨hres, by rw [hres]⟩
  · intro hr
    exact seq_progress (Start inputs 1 mapper) inputs rfl rfl s hseq hcl hr
  · have h1 := run_length_le (Start inputs 1 mapper) sched _ s hrun
    have h2 := measure_init_le inputs mapper
    omega

/-- C7 (witness): the run `stuckSchedule` on `[10, 20, 30]`, in which the mapper signals
`Stop` on the first element: `ParallelMap` has returned the collection of `Map`. -/
theorem ParallelMap_concurrency_one_witness :
    stuckState.results = Map [10, 20, 30] stopOnTen ∧
      stuckSchedule.length ≤ 7 * [10, 20, 30].length + 8 :=
  ⟨((ParallelMap_concurrency_one [10, 20, 30] stopOnTen stuckSchedule stuckState rfl).1 rfl).1,
    (ParallelMap_concurrency_one [10, 20, 30] stopOnTen stuckSchedule stuckState rfl).2.2⟩

end MapReduce
